import Mathlib

/-!
# Verification of the libra consensus core and VM data caches

This file gives a shallow embedding, in Lean 4, of the parts of the
`kengeo/libra` repository that the specification talks about:

* the block-level and transaction-level data caches of the Move VM
  (`language/vm/vm_runtime/src/data_cache.rs`), embedded directly from the
  source;
* the chained-BFT consensus core (block tree, quorum-certificate engine,
  safety rules).  The implementation of those components is not part of the
  source snapshot (only its test utilities and module declarations are), so
  they are modelled from the specification, as flagged on each definition.

Machine integers (`u64` rounds, hashes) are modelled as `Nat`: none of the
verified properties involves wrap-around arithmetic.  Byte blobs are
`List Nat`, access paths and hash values are opaque `Nat` keys.
-/

/-! ## Association-list maps

`BTreeMap` from the Rust standard library is modelled as an association
list with at most one binding per key: `ainsert` replaces any previous
binding, `aerase` removes the binding.  Only the map semantics of
`BTreeMap` (one value per key) is relevant to the verified properties;
key ordering is not observable through the embedded operations. -/

def alookup {κ α : Type} [DecidableEq κ] : List (κ × α) → κ → Option α
  | [], _ => none
  | (k2, v) :: rest, k => if k2 = k then some v else alookup rest k

def aerase {κ α : Type} [DecidableEq κ] : List (κ × α) → κ → List (κ × α)
  | [], _ => []
  | (k2, v) :: rest, k => if k2 = k then aerase rest k else (k2, v) :: aerase rest k

def ainsert {κ α : Type} [DecidableEq κ] (m : List (κ × α)) (k : κ) (v : α) :
    List (κ × α) :=
  (k, v) :: aerase m k

theorem alookup_aerase_self {κ α : Type} [DecidableEq κ] (m : List (κ × α)) (k : κ) :
    alookup (aerase m k) k = none := by
  induction m with
  | nil => rfl
  | cons p rest ih =>
    obtain ⟨k2, v⟩ := p
    by_cases h : k2 = k
    · simp [aerase, h, ih]
    · simp [aerase, alookup, h, ih]

theorem alookup_aerase_ne {κ α : Type} [DecidableEq κ] (m : List (κ × α)) (k k2 : κ)
    (h : k2 ≠ k) : alookup (aerase m k) k2 = alookup m k2 := by
  induction m with
  | nil => rfl
  | cons p rest ih =>
    obtain ⟨k3, v⟩ := p
    by_cases h3 : k3 = k
    · have hdrop : aerase ((k3, v) :: rest) k = aerase rest k := by
        simp [aerase, h3]
      have hne : ¬ k3 = k2 := fun hh => h (hh ▸ h3)
      rw [hdrop, ih]
      simp [alookup, hne]
    · have hkeep : aerase ((k3, v) :: rest) k = (k3, v) :: aerase rest k := by
        simp [aerase, h3]
      rw [hkeep]
      by_cases h4 : k3 = k2
      · simp [alookup, h4]
      · simp [alookup, h4, ih]

theorem alookup_ainsert_self {κ α : Type} [DecidableEq κ] (m : List (κ × α))
    (k : κ) (v : α) : alookup (ainsert m k v) k = some v := by
  simp [ainsert, alookup]

theorem alookup_ainsert_ne {κ α : Type} [DecidableEq κ] (m : List (κ × α))
    (k k2 : κ) (v : α) (h : k2 ≠ k) :
    alookup (ainsert m k v) k2 = alookup m k2 := by
  have hne : ¬ k = k2 := fun hh => h hh.symm
  show alookup ((k, v) :: aerase m k) k2 = alookup m k2
  simp only [alookup, if_neg hne]
  exact alookup_aerase_ne m k k2 h

/-! ## The VM data caches (`language/vm/vm_runtime/src/data_cache.rs`)

Embedded from the source file, which is part of the snapshot.  The opaque
collaborators are modelled as follows:

* `AccessPath` is an opaque key: `Nat`;
* byte vectors `Vec<u8>` are `List Nat`;
* the remote `StateView` / `RemoteCache` is a function from access paths to
  a fallible optional blob, passed explicitly where the Rust code holds a
  reference;
* `VMStatus` keeps only its `major_status` field, the only one the
  embedded code inspects. -/

namespace DataCache

/-- The status codes of `vm_error::StatusCode` used by `data_cache.rs`. -/
inductive StatusCode : Type
  | STORAGE_ERROR
  | MISSING_DATA
  | CANNOT_WRITE_EXISTING_RESOURCE
  | DYNAMIC_REFERENCE_ERROR
  | VALUE_SERIALIZATION_ERROR
  | DATA_FORMAT_ERROR
  | INVALID_DATA
deriving DecidableEq, Repr

/-- `VMStatus`, restricted to the `major_status` field inspected by
`move_resource_to`. -/
structure VMStatus : Type where
  major_status : StatusCode
deriving DecidableEq, Repr

/-- `VMResult<T>` from `vm::errors`. -/
abbrev VMResult (α : Type) : Type := Except VMStatus α

/-- A state view (`StateView::get`), returning `Result<Option<Vec<u8>>>`;
the opaque `failure::Error` payload is modelled as `Unit`. -/
abbrev StateViewGet : Type := Nat → Except Unit (Option (List Nat))

/-- `WriteOp` from `libra_types::write_set`. -/
inductive WriteOp : Type
  | Value (blob : List Nat)
  | Deletion
deriving DecidableEq, Repr

/-- A `WriteSet`: ordered `(AccessPath, WriteOp)` pairs. -/
abbrev WriteSet : Type := List (Nat × WriteOp)

/-- `BlockDataCache` (data_cache.rs, lines 26-32): the block-level write
cache over a state view.  The `data_view` reference is passed explicitly
to `get`. -/
structure BlockDataCache : Type where
  data_map : List (Nat × List Nat)
deriving DecidableEq, Repr

/-- `BlockDataCache::get` (data_cache.rs, lines 42-54): local entry first,
otherwise the underlying state view, mapping a view failure to
`STORAGE_ERROR`. -/
def BlockDataCache.get (view : StateViewGet) (c : BlockDataCache) (ap : Nat) :
    VMResult (Option (List Nat)) :=
  match alookup c.data_map ap with
  | some data => .ok (some data)
  | none =>
    match view ap with
    | .ok remote_data => .ok remote_data
    | .error _ => .error ⟨.STORAGE_ERROR⟩

/-- `BlockDataCache::push_write_set` (data_cache.rs, lines 56-67): apply
each write op in order; a `Value` inserts, a `Deletion` removes. -/
def BlockDataCache.push_write_set (c : BlockDataCache) (write_set : WriteSet) :
    BlockDataCache :=
  write_set.foldl
    (fun acc p =>
      match p.2 with
      | .Value blob => ⟨ainsert acc.data_map p.1 blob⟩
      | .Deletion => ⟨aerase acc.data_map p.1⟩)
    c

/-- The last write op a write set performs at a given access path, if any. -/
def lastOpAt (write_set : WriteSet) (ap : Nat) : Option WriteOp :=
  write_set.foldl (fun acc p => if p.1 = ap then some p.2 else acc) none

theorem lastOpAt_nil (ap : Nat) : lastOpAt [] ap = none := rfl

/-- The local map after `push_write_set` holds, at each path, exactly the
result of the last write op at that path. -/
theorem push_write_set_lookup (c : BlockDataCache) (write_set : WriteSet)
    (ap : Nat) :
    alookup (c.push_write_set write_set).data_map ap =
      match lastOpAt write_set ap with
      | some (.Value b) => some b
      | some .Deletion => none
      | none => alookup c.data_map ap := by
  induction write_set generalizing c with
  | nil => rfl
  | cons p rest ih =>
    obtain ⟨k, op⟩ := p
    have step :
        BlockDataCache.push_write_set c ((k, op) :: rest) =
          BlockDataCache.push_write_set
            (match op with
             | .Value blob => ⟨ainsert c.data_map k blob⟩
             | .Deletion => ⟨aerase c.data_map k⟩) rest := by
      cases op <;> rfl
    have hlast :
        lastOpAt ((k, op) :: rest) ap =
          match lastOpAt rest ap with
          | some o => some o
          | none => if k = ap then some op else none := by
      simp only [lastOpAt, List.foldl_cons]
      have aux : ∀ (l : WriteSet) (a : Option WriteOp),
          l.foldl (fun acc p => if p.1 = ap then some p.2 else acc) a =
            match l.foldl (fun acc p => if p.1 = ap then some p.2 else acc)
                (none : Option WriteOp) with
            | some o => some o
            | none => a := by
        intro l
        induction l with
        | nil => intro a; rfl
        | cons q qrest ihq =>
          intro a
          simp only [List.foldl_cons]
          rw [ihq (if q.1 = ap then some q.2 else a),
            ihq (if q.1 = ap then some q.2 else none)]
          cases List.foldl (fun acc p => if p.1 = ap then some p.2 else acc)
              none qrest <;>
            by_cases hq : q.1 = ap <;> simp [hq]
      exact aux rest (if k = ap then some op else none)
    rw [step, ih, hlast]
    cases hrest : lastOpAt rest ap with
    | some o => cases o <;> cases op <;> rfl
    | none =>
      by_cases hk : k = ap
      · cases op with
        | Value blob => simp [hk, alookup_ainsert_self]
        | Deletion => simp [hk, alookup_aerase_self]
      · cases op with
        | Value blob =>
          simp [hk, alookup_ainsert_ne _ _ _ _ (fun h => hk h.symm)]
        | Deletion =>
          simp [hk, alookup_aerase_ne _ _ _ (fun h => hk h.symm)]

/-- Claim C9: after `BlockDataCache::push_write_set` applies a write set
whose write op at access path `ap` is `WriteOp::Value(b)`, `get(ap)`
returns `Ok(Some(b))` for every underlying state view (so the view is
never consulted); after it applies `WriteOp::Deletion` at `ap`, the local
entry at `ap` is gone and `get(ap)` returns exactly what the underlying
state view holds for `ap`. -/
theorem blockDataCache_get_after_push_write_set (c : BlockDataCache)
    (write_set : WriteSet) (ap : Nat) :
    (∀ b : List Nat, lastOpAt write_set ap = some (.Value b) →
      ∀ view : StateViewGet,
        BlockDataCache.get view (c.push_write_set write_set) ap = .ok (some b)) ∧
    (lastOpAt write_set ap = some .Deletion →
      alookup (c.push_write_set write_set).data_map ap = none ∧
      ∀ (view : StateViewGet) (r : Option (List Nat)), view ap = .ok r →
        BlockDataCache.get view (c.push_write_set write_set) ap = .ok r) := by
  constructor
  · intro b hb view
    unfold BlockDataCache.get
    rw [push_write_set_lookup, hb]
  · intro hd
    have hnone : alookup (c.push_write_set write_set).data_map ap = none := by
      rw [push_write_set_lookup, hd]
    refine ⟨hnone, ?_⟩
    intro view r hview
    unfold BlockDataCache.get
    rw [hnone, hview]

/-- Witness for C9 at a concrete cache, write set and state views. -/
theorem blockDataCache_get_after_push_write_set_witness :
    lastOpAt [(2, WriteOp.Value [9]), (1, .Deletion)] 2 = some (.Value [9]) ∧
    lastOpAt [(2, WriteOp.Value [9]), (1, .Deletion)] 1 = some .Deletion ∧
    BlockDataCache.get (fun _ => .error ())
      (BlockDataCache.push_write_set ⟨[(1, [5])]⟩
        [(2, WriteOp.Value [9]), (1, .Deletion)]) 2 = .ok (some [9]) ∧
    BlockDataCache.get (fun _ => .ok (some [7]))
      (BlockDataCache.push_write_set ⟨[(1, [5])]⟩
        [(2, WriteOp.Value [9]), (1, .Deletion)]) 1 = .ok (some [7]) :=
  ⟨by decide, by decide,
    (blockDataCache_get_after_push_write_set ⟨[(1, [5])]⟩
      [(2, WriteOp.Value [9]), (1, .Deletion)] 2).1 [9] (by decide) _,
    ((blockDataCache_get_after_push_write_set ⟨[(1, [5])]⟩
      [(2, WriteOp.Value [9]), (1, .Deletion)] 1).2 (by decide)).2 _ (some [7]) rfl⟩

/-! ### The transaction-level cache (`TransactionDataCache`)

`GlobalRef` comes from the external `vm_runtime_types` crate (not part of
the snapshot); it is modelled by the contract `data_cache.rs` relies on:
a freshly built root (`GlobalRef::make_root`, `GlobalRef::move_to`) holds
the given value and is not deleted, `is_deleted` reads the deletion flag.
`Value::simple_deserialize` and the `StructDef` argument are opaque: they
are folded into an explicit fallible deserialization function. -/

/-- Model of `vm_runtime_types::value::GlobalRef`, restricted to what
`load_data` / `move_resource_to` observe: the held value and the deletion
flag. -/
structure GlobalRef : Type where
  value : List Nat
  deleted : Bool
deriving DecidableEq, Repr

/-- `GlobalRef::make_root`: a freshly loaded root, live. -/
def GlobalRef.make_root (v : List Nat) : GlobalRef := ⟨v, false⟩

/-- `GlobalRef::move_to`: a dirty root holding the moved-in resource, live. -/
def GlobalRef.move_to (v : List Nat) : GlobalRef := ⟨v, false⟩

/-- `GlobalRef::is_deleted`. -/
def GlobalRef.is_deleted (g : GlobalRef) : Bool := g.deleted

/-- `RemoteCache::get`: access path to fallible optional blob. -/
abbrev RemoteCacheGet : Type := Nat → VMResult (Option (List Nat))

/-- `Value::simple_deserialize` at a fixed `StructDef`: opaque fallible
deserialization. -/
abbrev Deserialize : Type := List Nat → VMResult (List Nat)

/-- `TransactionDataCache` (data_cache.rs, lines 87-93): the per-transaction
map from access paths to global refs; the `RemoteCache` reference is passed
explicitly. -/
structure TransactionDataCache : Type where
  data_map : List (Nat × GlobalRef)
deriving DecidableEq, Repr

/-- `TransactionDataCache::load_data` (data_cache.rs, lines 109-123): local
hit returns the cached ref; otherwise the blob is fetched from the remote
cache (propagating its error), deserialized (propagating the error), stored
as a fresh root and returned; an absent remote value is `MISSING_DATA`.
Returns the ref together with the updated cache (the Rust code mutates
`self.data_map` in place). -/
def TransactionDataCache.load_data (remote : RemoteCacheGet) (deser : Deserialize)
    (c : TransactionDataCache) (ap : Nat) :
    VMResult (GlobalRef × TransactionDataCache) :=
  match alookup c.data_map ap with
  | some g => .ok (g, c)
  | none =>
    match remote ap with
    | .error e => .error e
    | .ok none => .error ⟨.MISSING_DATA⟩
    | .ok (some bytes) =>
      match deser bytes with
      | .error e => .error e
      | .ok res =>
        let new_root := GlobalRef.make_root res
        .ok (new_root, ⟨ainsert c.data_map ap new_root⟩)

/-- `TransactionDataCache::move_resource_to` (data_cache.rs, lines 185-211):
writable iff the loaded ref is deleted or loading reports `MISSING_DATA`;
other load errors propagate; on success the moved-in resource is stored;
on a live resource the error is `CANNOT_WRITE_EXISTING_RESOURCE`.  Returns
the status together with the cache after the call. -/
def TransactionDataCache.move_resource_to (remote : RemoteCacheGet)
    (deser : Deserialize) (c : TransactionDataCache) (ap : Nat)
    (res : List Nat) : VMResult Unit × TransactionDataCache :=
  match c.load_data remote deser ap with
  | .ok (data, c1) =>
    if data.is_deleted then
      (.ok (), ⟨ainsert c1.data_map ap (GlobalRef.move_to res)⟩)
    else
      (.error ⟨.CANNOT_WRITE_EXISTING_RESOURCE⟩, c1)
  | .error e =>
    if e.major_status = .MISSING_DATA then
      (.ok (), ⟨ainsert c.data_map ap (GlobalRef.move_to res)⟩)
    else
      (.error e, c)

theorem move_resource_to_of_load_ok (remote : RemoteCacheGet)
    (deser : Deserialize) (c : TransactionDataCache) (ap : Nat)
    (res : List Nat) (g : GlobalRef) (c1 : TransactionDataCache)
    (hload : c.load_data remote deser ap = .ok (g, c1)) :
    c.move_resource_to remote deser ap res =
      if g.deleted then
        (.ok (), ⟨ainsert c1.data_map ap (GlobalRef.move_to res)⟩)
      else (.error ⟨.CANNOT_WRITE_EXISTING_RESOURCE⟩, c1) := by
  unfold TransactionDataCache.move_resource_to
  rw [hload]
  rfl

theorem move_resource_to_of_load_error (remote : RemoteCacheGet)
    (deser : Deserialize) (c : TransactionDataCache) (ap : Nat)
    (res : List Nat) (e : VMStatus)
    (hload : c.load_data remote deser ap = .error e) :
    c.move_resource_to remote deser ap res =
      if e.major_status = .MISSING_DATA then
        (.ok (), ⟨ainsert c.data_map ap (GlobalRef.move_to res)⟩)
      else (.error e, c) := by
  unfold TransactionDataCache.move_resource_to
  rw [hload]

/-- Counterexample to claim C10 as stated: with an empty local cache, a
remote cache holding a blob at `ap = 0` and an identity deserializer,
`move_resource_to` does return `CANNOT_WRITE_EXISTING_RESOURCE`, but the
cached entry at `ap` is NOT left unchanged: `load_data` stores the
remotely loaded live resource into the local map as a side effect, so the
entry goes from absent to present. -/
theorem move_resource_to_changes_cache_on_error :
    (TransactionDataCache.move_resource_to (fun _ => .ok (some [7]))
        (fun b => .ok b) ⟨[]⟩ 0 [5]).1 =
      .error ⟨.CANNOT_WRITE_EXISTING_RESOURCE⟩ ∧
    alookup (TransactionDataCache.move_resource_to (fun _ => .ok (some [7]))
        (fun b => .ok b) ⟨[]⟩ 0 [5]).2.data_map 0 =
      some (GlobalRef.make_root [7]) ∧
    alookup (TransactionDataCache.data_map ⟨[]⟩) 0 = none ∧
    alookup (TransactionDataCache.move_resource_to (fun _ => .ok (some [7]))
        (fun b => .ok b) ⟨[]⟩ 0 [5]).2.data_map 0 ≠
      alookup (TransactionDataCache.data_map ⟨[]⟩) 0 := by
  refine ⟨rfl, rfl, rfl, fun h => ?_⟩
  have h2 : some (GlobalRef.make_root [7]) = (none : Option GlobalRef) := h
  exact Option.noConfusion h2

/-- Claim C10 (amended): `move_resource_to(ap, def, res)` succeeds iff
loading reports `MISSING_DATA` or the loaded resource at `ap` is marked
deleted; when a live resource exists it returns
`CANNOT_WRITE_EXISTING_RESOURCE`, and the cached entry at `ap` is left
unchanged whenever the live resource was already in the local cache — but
if it was loaded from the remote cache during the check, it remains cached
at `ap` after the error. -/
theorem move_resource_to_spec (remote : RemoteCacheGet) (deser : Deserialize)
    (c : TransactionDataCache) (ap : Nat) (res : List Nat) :
    ((c.move_resource_to remote deser ap res).1 = .ok () ↔
      (c.load_data remote deser ap = .error ⟨.MISSING_DATA⟩ ∨
       ∃ g c1, c.load_data remote deser ap = .ok (g, c1) ∧ g.deleted = true)) ∧
    (∀ g c1, c.load_data remote deser ap = .ok (g, c1) → g.deleted = false →
      (c.move_resource_to remote deser ap res =
        (.error ⟨.CANNOT_WRITE_EXISTING_RESOURCE⟩, c1)) ∧
      (alookup c.data_map ap = some g → c1 = c)) := by
  constructor
  · cases hload : c.load_data remote deser ap with
    | ok p =>
      obtain ⟨g, c1⟩ := p
      rw [move_resource_to_of_load_ok remote deser c ap res g c1 hload]
      by_cases hdel : g.deleted
      · simp only [hdel, if_true]
        simp [hdel]
      · simp only [hdel, if_false]
        simp [hdel]
    | error e =>
      rw [move_resource_to_of_load_error remote deser c ap res e hload]
      by_cases hm : e.major_status = .MISSING_DATA
      · have he : e = ⟨.MISSING_DATA⟩ := by cases e; simp_all
        subst he
        simp
      · cases e
        simp_all
  · intro g c1 hload hdel
    constructor
    · rw [move_resource_to_of_load_ok remote deser c ap res g c1 hload, hdel]
      simp
    · intro hcached
      unfold TransactionDataCache.load_data at hload
      rw [hcached] at hload
      exact (congrArg Prod.snd (Except.ok.inj hload)).symm

/-- Witness for C10 (amended) at concrete inputs: a cached deleted entry
makes `move_resource_to` succeed, and a cached live entry makes it fail
leaving the cache unchanged. -/
theorem move_resource_to_spec_witness :
    TransactionDataCache.load_data (fun _ => .ok none) (fun b => .ok b)
        ⟨[(0, ⟨[3], true⟩)]⟩ 0 = .ok (⟨[3], true⟩, ⟨[(0, ⟨[3], true⟩)]⟩) ∧
    (TransactionDataCache.move_resource_to (fun _ => .ok none) (fun b => .ok b)
        ⟨[(0, ⟨[3], true⟩)]⟩ 0 [5]).1 = .ok () ∧
    TransactionDataCache.move_resource_to (fun _ => .ok none) (fun b => .ok b)
        ⟨[(0, ⟨[3], false⟩)]⟩ 0 [5] =
      (.error ⟨.CANNOT_WRITE_EXISTING_RESOURCE⟩, ⟨[(0, ⟨[3], false⟩)]⟩) := by
  refine ⟨rfl, ?_, ?_⟩
  · exact (move_resource_to_spec (fun _ => .ok none) (fun b => .ok b)
      ⟨[(0, ⟨[3], true⟩)]⟩ 0 [5]).1.mpr
        (Or.inr ⟨⟨[3], true⟩, ⟨[(0, ⟨[3], true⟩)]⟩, rfl, rfl⟩)
  · have h := (move_resource_to_spec (fun _ => .ok none) (fun b => .ok b)
      ⟨[(0, ⟨[3], false⟩)]⟩ 0 [5]).2 ⟨[3], false⟩ ⟨[(0, ⟨[3], false⟩)]⟩
      rfl rfl
    rw [h.1, h.2 rfl]

end DataCache

/-! ## The consensus core: block tree, safety rules, QC engine

The implementations of `BlockStore`/`BlockTree`, `SafetyRules` and the
pending-votes aggregator live in repository modules that are not part of
the source snapshot (`consensus/src/chained_bft/mod.rs` only declares
them, and `test_utils/mod.rs` only drives them), so this section models
them from the specification, §3-§4 and §8-§9.  Every definition whose
doc comment starts with `Modelled from the spec` is such a model. -/

namespace Bft

/-- Rounds are `u64` in the source; none of the verified properties
involves wrap-around, so `Nat`. -/
abbrev Round : Type := Nat

/-- `BlockId`/`HashValue`: an opaque content hash. -/
abbrev BlockId : Type := Nat

/-- Validator identity: an opaque account address. -/
abbrev Author : Type := Nat

/-- Modelled from the spec: an `ExecutedBlock` as held by the block tree
arena (§3, §9) — the block's id (content hash), the id of the parent it
extends, its round, the round certified by its carried parent QC, and the
opaque payload standing for the remaining immutable content (payload,
timestamp, author, signature, cached `StateComputeResult`). -/
structure BlockRec : Type where
  id : BlockId
  parent_id : BlockId
  round : Round
  qc_round : Round
  payload : Nat
deriving DecidableEq, Repr

/-- Modelled from the spec: the `LedgerInfo` fragment a commit returns —
the committed block and its round (§3). -/
structure LedgerInfo : Type where
  consensus_block_id : BlockId
  round : Round
deriving DecidableEq, Repr

/-- Modelled from the spec: the block tree (§4.1, §9) — an arena of live
blocks keyed by id, the root (last committed) pointer, and the tracked
highest-QC / highest-commit-certificate rounds (§4.2).  The children
index of §9 is derivable from the arena and is not duplicated here. -/
structure BlockTree : Type where
  root_id : BlockId
  blocks : List BlockRec
  highest_qc_round : Round
  highest_commit_round : Round
deriving DecidableEq, Repr

/-- Arena lookup by block id (first match). -/
def findBlock : List BlockRec → BlockId → Option BlockRec
  | [], _ => none
  | b :: rest, id => if b.id = id then some b else findBlock rest id

/-- `block_exists` of the tree interface. -/
def BlockTree.block_exists (t : BlockTree) (id : BlockId) : Bool :=
  (findBlock t.blocks id).isSome

/-- The ancestor chain of `id` down to (excluding) `stop`, oldest first,
walking parent links in the given arena with explicit fuel.  `some []`
iff `id = stop`; `none` if the walk runs off the arena or out of fuel. -/
def chainAux (blocks : List BlockRec) : Nat → BlockId → BlockId → Option (List BlockRec)
  | 0, _, _ => none
  | fuel + 1, id, stop =>
    if id = stop then some []
    else
      match findBlock blocks id with
      | none => none
      | some b =>
        match chainAux blocks fuel b.parent_id stop with
        | none => none
        | some l => some (l ++ [b])

/-- Modelled from the spec: `path_from_root(block_id)` (§4.1) — the
ordered (oldest-first) sequence of blocks from just above the root down
to `block_id`.  The fuel `|blocks| + 1` is enough for every block of a
well-formed tree. -/
def BlockTree.path_from_root (t : BlockTree) (id : BlockId) : Option (List BlockRec) :=
  chainAux t.blocks (t.blocks.length + 1) id t.root_id

/-- `id` is `anc` itself or one of its descendants in the arena. -/
def descendsB (blocks : List BlockRec) (id anc : BlockId) : Bool :=
  (chainAux blocks (blocks.length + 1) id anc).isSome

/-- No two arena entries share an id. -/
def distinctIds : List BlockRec → Bool
  | [] => true
  | b :: rest => (findBlock rest b.id).isNone && distinctIds rest

/-- Well-formedness of the tree, as a decidable check: ids are unique,
the root block is present, every non-root block has an in-arena parent of
strictly smaller round (§3 invariants 1-2), and every block's parent walk
reaches the root. -/
def wfB (t : BlockTree) : Bool :=
  distinctIds t.blocks &&
  (findBlock t.blocks t.root_id).isSome &&
  t.blocks.all (fun b =>
    (b.id = t.root_id : Bool) ||
    (match findBlock t.blocks b.parent_id with
     | some p => decide (p.round < b.round)
     | none => false)) &&
  t.blocks.all (fun b => (chainAux t.blocks (t.blocks.length + 1) b.id t.root_id).isSome)

/-- Errors of the tree interface (§4.1); `DuplicateBlock` does not appear
here because a duplicate insert is idempotent and returns the existing
block. -/
inductive InsertError : Type
  | InvalidProposal
deriving DecidableEq, Repr

/-- Modelled from the spec: `insert_block(block, qc)` (§4.1).  A block
already present is returned as is (`DuplicateBlock` is idempotent);
a missing or pruned parent and a non-increasing round are rejected with
`InvalidProposal` and leave the tree untouched; otherwise the block is
linked into the arena and the tracked highest QC advances if the carried
QC's round exceeds the current one.  The pair returns the status together
with the tree after the call. -/
def BlockTree.insert_block (t : BlockTree) (b : BlockRec) :
    Except InsertError BlockRec × BlockTree :=
  match findBlock t.blocks b.id with
  | some existing => (.ok existing, t)
  | none =>
    match findBlock t.blocks b.parent_id with
    | none => (.error .InvalidProposal, t)
    | some p =>
      if b.round ≤ p.round then (.error .InvalidProposal, t)
      else
        (.ok b,
          { t with
            blocks := b :: t.blocks,
            highest_qc_round :=
              if t.highest_qc_round < b.qc_round then b.qc_round
              else t.highest_qc_round })

theorem insert_block_dup (t : BlockTree) (b existing : BlockRec)
    (h : findBlock t.blocks b.id = some existing) :
    t.insert_block b = (.ok existing, t) := by
  unfold BlockTree.insert_block
  rw [h]

theorem insert_block_no_parent (t : BlockTree) (b : BlockRec)
    (hdup : findBlock t.blocks b.id = none)
    (hpar : findBlock t.blocks b.parent_id = none) :
    t.insert_block b = (.error .InvalidProposal, t) := by
  unfold BlockTree.insert_block
  rw [hdup, hpar]

theorem insert_block_bad_round (t : BlockTree) (b p : BlockRec)
    (hdup : findBlock t.blocks b.id = none)
    (hpar : findBlock t.blocks b.parent_id = some p)
    (hr : b.round ≤ p.round) :
    t.insert_block b = (.error .InvalidProposal, t) := by
  unfold BlockTree.insert_block
  simp only [hdup, hpar]
  rw [if_pos hr]

theorem insert_block_ok (t : BlockTree) (b p : BlockRec)
    (hdup : findBlock t.blocks b.id = none)
    (hpar : findBlock t.blocks b.parent_id = some p)
    (hr : ¬ b.round ≤ p.round) :
    t.insert_block b =
      (.ok b,
        { t with
          blocks := b :: t.blocks,
          highest_qc_round :=
            if t.highest_qc_round < b.qc_round then b.qc_round
            else t.highest_qc_round }) := by
  unfold BlockTree.insert_block
  simp only [hdup, hpar]
  rw [if_neg hr]

/-- Modelled from the spec: `commit(block_id)` (§4.1) — keep exactly the
new root and its descendants, advance the root pointer and the highest
commit certificate, and return the newly committed blocks (the chain from
just above the old root down to the new root), oldest first.  When the
precondition fails (`block_id` not a live descendant of the root) the
tree is left untouched and nothing is committed. -/
def BlockTree.commit (t : BlockTree) (id : BlockId) :
    List BlockRec × BlockTree :=
  match t.path_from_root id with
  | none => ([], t)
  | some committed =>
    let kept := t.blocks.filter (fun b => descendsB t.blocks b.id id)
    let new_round :=
      match findBlock t.blocks id with
      | some b => b.round
      | none => t.highest_commit_round
    (committed,
      { t with
        root_id := id,
        blocks := kept,
        highest_commit_round :=
          if t.highest_commit_round < new_round then new_round
          else t.highest_commit_round })

/-- `highest_qc()` accessor (§4.2), as a round. -/
def BlockTree.highest_qc (t : BlockTree) : Round := t.highest_qc_round

/-- `highest_commit_cert()` accessor (§4.2), as a round. -/
def BlockTree.highest_commit_cert (t : BlockTree) : Round := t.highest_commit_round

/-- Modelled from the spec: `should_commit(qc_chain)` (§4.3) — the
3-chain commit rule over the tree.  The head of the chain is the block a
QC just formed for; its carried parent links give the parent and the
grandparent; the grandparent's `LedgerInfo` is returned exactly when the
three rounds are strictly increasing and contiguous. -/
def BlockTree.should_commit (t : BlockTree) (id : BlockId) : Option LedgerInfo :=
  match findBlock t.blocks id with
  | none => none
  | some b =>
    match findBlock t.blocks b.parent_id with
    | none => none
    | some p =>
      match findBlock t.blocks p.parent_id with
      | none => none
      | some gp =>
        if gp.round + 1 = p.round ∧ p.round + 1 = b.round then
          some ⟨gp.id, gp.round⟩
        else none

/-! ### Safety rules (§4.3, §9) -/

/-- Modelled from the spec: the owned `SafetyState` of §9 — last voted
round, the round of the locked (highest seen) QC, and the highest timeout
certificate round kept for persistence. -/
structure SafetyState : Type where
  last_voted_round : Round
  locked_qc_round : Round
  highest_tc_round : Round
deriving DecidableEq, Repr

/-- Modelled from the spec: `PersistentLivenessData` (§3) — the durable
`{last voted round, highest QC, highest timeout certificate}` record. -/
structure PersistentLivenessData : Type where
  last_voted_round : Round
  highest_qc_round : Round
  highest_tc_round : Round
deriving DecidableEq, Repr

/-- Persist the safety state (§4.3 failure semantics: durable, reloaded
verbatim on restart). -/
def persist (s : SafetyState) : PersistentLivenessData :=
  ⟨s.last_voted_round, s.locked_qc_round, s.highest_tc_round⟩

/-- Reload the safety state verbatim from the durable record. -/
def reload (d : PersistentLivenessData) : SafetyState :=
  ⟨d.last_voted_round, d.highest_qc_round, d.highest_tc_round⟩

theorem reload_persist (s : SafetyState) : reload (persist s) = s := rfl

/-- Modelled from the spec: the data of a proposed block `should_vote`
inspects — its id, its round, the round of its carried QC, and whether it
extends (is a descendant of) the block certified by the locked QC.  The
descendant test itself is the block tree's ancestry query; it enters the
safety rules as this precomputed flag. -/
structure ProposalData : Type where
  id : BlockId
  round : Round
  qc_round : Round
  extends_locked : Bool
deriving DecidableEq, Repr

/-- The vote a successful `should_vote` emits: the endorsed block and
round. -/
structure VoteMsg : Type where
  block_id : BlockId
  round : Round
deriving DecidableEq, Repr

/-- `SafetyError` (§4.3): stale round or lock violation. -/
inductive SafetyError : Type
  | StaleRound
  | LockViolation
deriving DecidableEq, Repr

/-- Modelled from the spec: `should_vote(proposed_block, its_qc)` (§4.3).
Rule (a): the round must exceed every previously voted round; rules
(b)/(c): the proposal extends the locked block, or its own QC round is
higher than the locked QC's round.  On success the state with the new
`last_voted_round` is returned alongside the vote: the caller persists it
before the vote leaves the replica. -/
def should_vote (s : SafetyState) (p : ProposalData) :
    Except SafetyError (VoteMsg × SafetyState) :=
  if p.round ≤ s.last_voted_round then .error .StaleRound
  else if p.extends_locked || decide (s.locked_qc_round < p.qc_round) then
    .ok (⟨p.id, p.round⟩, { s with last_voted_round := p.round })
  else .error .LockViolation

/-- The safety state after processing one proposal: updated on a
successful vote, unchanged when a `SafetyError` is reported (§4.3 failure
semantics). -/
def apply_should_vote (s : SafetyState) (p : ProposalData) : SafetyState :=
  match should_vote s p with
  | .ok (_, s2) => s2
  | .error _ => s

theorem last_voted_le_apply_should_vote (s : SafetyState) (p : ProposalData) :
    s.last_voted_round ≤ (apply_should_vote s p).last_voted_round := by
  unfold apply_should_vote should_vote
  by_cases h1 : p.round ≤ s.last_voted_round
  · rw [if_pos h1]
  · rw [if_neg h1]
    by_cases h2 : (p.extends_locked || decide (s.locked_qc_round < p.qc_round)) = true
    · rw [if_pos h2]
      show s.last_voted_round ≤ p.round
      exact le_of_not_le h1
    · rw [if_neg h2]

theorem last_voted_le_foldl_apply_should_vote (s : SafetyState)
    (rest : List ProposalData) :
    s.last_voted_round ≤ (rest.foldl apply_should_vote s).last_voted_round := by
  induction rest generalizing s with
  | nil => exact Nat.le_refl _
  | cons p ps ih =>
    exact Nat.le_trans (last_voted_le_apply_should_vote s p)
      (ih (apply_should_vote s p))

/-- Claim C2: once `should_vote` succeeds for round R, the new
`last_voted_round` equals R in the returned (persisted) state, and every
later `should_vote` call at round R — after any further sequence of
proposals and after a crash/reload of `PersistentLivenessData` — fails
with a `SafetyError` (`StaleRound`) instead of producing a vote. -/
theorem should_vote_no_double_vote (s : SafetyState) (p : ProposalData)
    (v : VoteMsg) (s1 : SafetyState) (h : should_vote s p = .ok (v, s1))
    (rest : List ProposalData) (q : ProposalData) (hq : q.round = p.round) :
    s1.last_voted_round = p.round ∧
    (persist s1).last_voted_round = p.round ∧
    should_vote (reload (persist (rest.foldl apply_should_vote s1))) q =
      .error .StaleRound := by
  have hs1 : s1.last_voted_round = p.round := by
    unfold should_vote at h
    by_cases h1 : p.round ≤ s.last_voted_round
    · simp [h1] at h
    · by_cases h2 : p.extends_locked || decide (s.locked_qc_round < p.qc_round)
      · simp [h1, h2] at h
        rw [← h.2]
      · simp [h1, h2] at h
  refine ⟨hs1, hs1, ?_⟩
  rw [reload_persist]
  have hle : p.round ≤ (rest.foldl apply_should_vote s1).last_voted_round :=
    hs1 ▸ last_voted_le_foldl_apply_should_vote s1 rest
  unfold should_vote
  rw [if_pos (hq ▸ hle)]

/-- Witness for C2 at a concrete state and proposals. -/
theorem should_vote_no_double_vote_witness :
    should_vote ⟨0, 0, 0⟩ ⟨1, 1, 0, true⟩ = .ok (⟨1, 1⟩, ⟨1, 0, 0⟩) ∧
    should_vote (reload (persist
        ([⟨9, 3, 2, true⟩].foldl apply_should_vote ⟨1, 0, 0⟩))) ⟨2, 1, 0, true⟩ =
      .error .StaleRound :=
  ⟨rfl,
    (should_vote_no_double_vote ⟨0, 0, 0⟩ ⟨1, 1, 0, true⟩ ⟨1, 1⟩ ⟨1, 0, 0⟩ rfl
      [⟨9, 3, 2, true⟩] ⟨2, 1, 0, true⟩ rfl).2.2⟩

/-- Claim C3: over a tree holding the chain `gp ← p ← b`, `should_commit`
at `b` returns the grandparent's `LedgerInfo` when the three rounds are
strictly increasing and contiguous, and `none` when they are not. -/
theorem should_commit_three_chain (t : BlockTree) (b p gp : BlockRec)
    (hb : findBlock t.blocks b.id = some b)
    (hp : findBlock t.blocks b.parent_id = some p)
    (hgp : findBlock t.blocks p.parent_id = some gp) :
    (gp.round + 1 = p.round ∧ p.round + 1 = b.round →
      t.should_commit b.id = some ⟨gp.id, gp.round⟩) ∧
    (¬(gp.round + 1 = p.round ∧ p.round + 1 = b.round) →
      t.should_commit b.id = none) := by
  simp only [BlockTree.should_commit, hb, hp, hgp]
  constructor <;> intro h <;> simp [h]

/-- Witness for C3: the spec's §8 example — QCs at rounds 5, 6, 7 commit
the round-5 block; a gap (5, 6, 9) commits nothing. -/
theorem should_commit_three_chain_witness :
    BlockTree.should_commit
      ⟨0, [⟨7, 6, 7, 6, 0⟩, ⟨9, 6, 9, 6, 0⟩, ⟨6, 5, 6, 5, 0⟩, ⟨5, 0, 5, 0, 0⟩,
           ⟨0, 99, 0, 0, 0⟩], 0, 0⟩ 7 = some ⟨5, 5⟩ ∧
    BlockTree.should_commit
      ⟨0, [⟨7, 6, 7, 6, 0⟩, ⟨9, 6, 9, 6, 0⟩, ⟨6, 5, 6, 5, 0⟩, ⟨5, 0, 5, 0, 0⟩,
           ⟨0, 99, 0, 0, 0⟩], 0, 0⟩ 9 = none := by
  constructor
  · exact (should_commit_three_chain
      ⟨0, [⟨7, 6, 7, 6, 0⟩, ⟨9, 6, 9, 6, 0⟩, ⟨6, 5, 6, 5, 0⟩, ⟨5, 0, 5, 0, 0⟩,
           ⟨0, 99, 0, 0, 0⟩], 0, 0⟩
      ⟨7, 6, 7, 6, 0⟩ ⟨6, 5, 6, 5, 0⟩ ⟨5, 0, 5, 0, 0⟩ rfl rfl rfl).1 (by decide)
  · exact (should_commit_three_chain
      ⟨0, [⟨7, 6, 7, 6, 0⟩, ⟨9, 6, 9, 6, 0⟩, ⟨6, 5, 6, 5, 0⟩, ⟨5, 0, 5, 0, 0⟩,
           ⟨0, 99, 0, 0, 0⟩], 0, 0⟩
      ⟨9, 6, 9, 6, 0⟩ ⟨6, 5, 6, 5, 0⟩ ⟨5, 0, 5, 0, 0⟩ rfl rfl rfl).2 (by decide)

/-- Counterexample to claim C6 as stated: a block that is ALREADY in the
tree and whose parent is absent (the root block — its parent was pruned
at the last commit) is answered by the idempotent duplicate path, `Ok`
with the existing block, not `InvalidProposal`.  Concretely, re-inserting
the root block of a one-block tree. -/
theorem insert_block_missing_parent_counterexample :
    findBlock (BlockTree.blocks ⟨0, [⟨0, 99, 0, 0, 0⟩], 0, 0⟩)
      (BlockRec.parent_id ⟨0, 99, 0, 0, 0⟩) = none ∧
    (BlockTree.insert_block ⟨0, [⟨0, 99, 0, 0, 0⟩], 0, 0⟩ ⟨0, 99, 0, 0, 0⟩).1 =
      .ok ⟨0, 99, 0, 0, 0⟩ ∧
    (BlockTree.insert_block ⟨0, [⟨0, 99, 0, 0, 0⟩], 0, 0⟩ ⟨0, 99, 0, 0, 0⟩).1 ≠
      .error .InvalidProposal := by
  refine ⟨rfl, rfl, fun h => ?_⟩
  have h2 : (Except.ok ⟨0, 99, 0, 0, 0⟩ : Except InsertError BlockRec) =
      .error .InvalidProposal := h
  exact Except.noConfusion h2

/-- Claim C6 (amended): for every block NOT already present in the tree
whose parent is not present (or already pruned — pruned blocks are absent
from the live arena), `insert_block` returns `InvalidProposal` without
panicking (the function is total), and after any rejected insert the
tree is unchanged, hence still consistent. -/
theorem insert_block_rejects_missing_parent (t : BlockTree) (b : BlockRec) :
    (findBlock t.blocks b.id = none → findBlock t.blocks b.parent_id = none →
      t.insert_block b = (.error .InvalidProposal, t)) ∧
    (∀ e, (t.insert_block b).1 = .error e →
      (t.insert_block b).2 = t ∧
      (wfB t = true → wfB (t.insert_block b).2 = true)) := by
  constructor
  · intro hdup hpar
    unfold BlockTree.insert_block
    rw [hdup, hpar]
  · intro e herr
    have hsnd : (t.insert_block b).2 = t := by
      unfold BlockTree.insert_block at herr ⊢
      cases hdup : findBlock t.blocks b.id with
      | some existing => rfl
      | none =>
        cases hpar : findBlock t.blocks b.parent_id with
        | none => rfl
        | some p =>
          by_cases hr : b.round ≤ p.round
          · simp [hr]
          · simp [hdup, hpar, hr] at herr
    exact ⟨hsnd, fun hwf => by rw [hsnd]; exact hwf⟩

/-- Witness for C6 (amended): inserting a block with an unknown parent
into a one-block tree is rejected and leaves the tree intact. -/
theorem insert_block_rejects_missing_parent_witness :
    BlockTree.insert_block ⟨0, [⟨0, 99, 0, 0, 0⟩], 0, 0⟩ ⟨5, 42, 5, 0, 0⟩ =
      (.error .InvalidProposal, ⟨0, [⟨0, 99, 0, 0, 0⟩], 0, 0⟩) ∧
    (BlockTree.insert_block ⟨0, [⟨0, 99, 0, 0, 0⟩], 0, 0⟩ ⟨5, 42, 5, 0, 0⟩).2 =
      ⟨0, [⟨0, 99, 0, 0, 0⟩], 0, 0⟩ ∧
    wfB (BlockTree.insert_block ⟨0, [⟨0, 99, 0, 0, 0⟩], 0, 0⟩
      ⟨5, 42, 5, 0, 0⟩).2 = true := by
  have h := insert_block_rejects_missing_parent ⟨0, [⟨0, 99, 0, 0, 0⟩], 0, 0⟩
    ⟨5, 42, 5, 0, 0⟩
  have h1 := h.1 rfl rfl
  have h2 := h.2 .InvalidProposal (by rw [h1])
  exact ⟨h1, h2.1, h2.2 (by decide)⟩

/-- Claim C7: inserting a block that is already stored bit-identically in
the tree is idempotent — the call returns the originally stored block and
the tree (arena, root, tracked rounds, hence size and structure) is
unchanged. -/
theorem insert_block_idempotent (t : BlockTree) (b : BlockRec)
    (h : findBlock t.blocks b.id = some b) :
    t.insert_block b = (.ok b, t) := by
  unfold BlockTree.insert_block
  rw [h]

/-- Witness for C7 on a concrete two-block tree. -/
theorem insert_block_idempotent_witness :
    findBlock (BlockTree.blocks ⟨0, [⟨1, 0, 1, 0, 7⟩, ⟨0, 99, 0, 0, 0⟩], 0, 0⟩)
      (BlockRec.id ⟨1, 0, 1, 0, 7⟩) = some ⟨1, 0, 1, 0, 7⟩ ∧
    BlockTree.insert_block ⟨0, [⟨1, 0, 1, 0, 7⟩, ⟨0, 99, 0, 0, 0⟩], 0, 0⟩
        ⟨1, 0, 1, 0, 7⟩ =
      (.ok ⟨1, 0, 1, 0, 7⟩, ⟨0, [⟨1, 0, 1, 0, 7⟩, ⟨0, 99, 0, 0, 0⟩], 0, 0⟩) :=
  ⟨rfl, insert_block_idempotent ⟨0, [⟨1, 0, 1, 0, 7⟩, ⟨0, 99, 0, 0, 0⟩], 0, 0⟩
    ⟨1, 0, 1, 0, 7⟩ rfl⟩

/-! ### Monotonicity of the tracked certificate rounds (claim C8) -/

/-- An operation of the tree / QC-engine surface that can move the
tracked certificate rounds. -/
inductive TreeOp : Type
  | insertOp (b : BlockRec)
  | commitOp (id : BlockId)
deriving DecidableEq, Repr

/-- The tree after one operation. -/
def BlockTree.apply_op (t : BlockTree) (op : TreeOp) : BlockTree :=
  match op with
  | .insertOp b => (t.insert_block b).2
  | .commitOp id => (t.commit id).2

theorem highest_qc_le_insert (t : BlockTree) (b : BlockRec) :
    t.highest_qc ≤ (t.insert_block b).2.highest_qc ∧
    t.highest_commit_cert ≤ (t.insert_block b).2.highest_commit_cert := by
  cases hdup : findBlock t.blocks b.id with
  | some existing =>
    rw [insert_block_dup t b existing hdup]
    exact ⟨Nat.le_refl _, Nat.le_refl _⟩
  | none =>
    cases hpar : findBlock t.blocks b.parent_id with
    | none =>
      rw [insert_block_no_parent t b hdup hpar]
      exact ⟨Nat.le_refl _, Nat.le_refl _⟩
    | some p =>
      by_cases hr : b.round ≤ p.round
      · rw [insert_block_bad_round t b p hdup hpar hr]
        exact ⟨Nat.le_refl _, Nat.le_refl _⟩
      · rw [insert_block_ok t b p hdup hpar hr]
        refine ⟨?_, Nat.le_refl _⟩
        show t.highest_qc_round ≤
          if t.highest_qc_round < b.qc_round then b.qc_round else t.highest_qc_round
        by_cases hq : t.highest_qc_round < b.qc_round
        · rw [if_pos hq]
          exact Nat.le_of_lt hq
        · rw [if_neg hq]

theorem highest_qc_le_commit (t : BlockTree) (id : BlockId) :
    t.highest_qc ≤ (t.commit id).2.highest_qc ∧
    t.highest_commit_cert ≤ (t.commit id).2.highest_commit_cert := by
  unfold BlockTree.commit
  cases t.path_from_root id with
  | none => exact ⟨Nat.le_refl _, Nat.le_refl _⟩
  | some committed =>
    refine ⟨Nat.le_refl _, ?_⟩
    show t.highest_commit_cert ≤
      (if t.highest_commit_round <
          (match findBlock t.blocks id with
           | some b => b.round
           | none => t.highest_commit_round) then
        (match findBlock t.blocks id with
         | some b => b.round
         | none => t.highest_commit_round)
      else t.highest_commit_round)
    by_cases hc : t.highest_commit_round <
        (match findBlock t.blocks id with
         | some b => b.round
         | none => t.highest_commit_round)
    · rw [if_pos hc]
      exact Nat.le_of_lt hc
    · rw [if_neg hc]
      exact Nat.le_refl _

theorem highest_le_apply_op (t : BlockTree) (op : TreeOp) :
    t.highest_qc ≤ (t.apply_op op).highest_qc ∧
    t.highest_commit_cert ≤ (t.apply_op op).highest_commit_cert := by
  cases op with
  | insertOp b => exact highest_qc_le_insert t b
  | commitOp id => exact highest_qc_le_commit t id

/-- Claim C8: across any sequence of tree / QC-engine operations the
rounds reported by `highest_qc()` and `highest_commit_cert()` never
decrease, and `insert_block` moves the tracked highest QC only when the
inserted block's carried QC round exceeds the current one (and then
exactly to that round). -/
theorem highest_rounds_monotone (t : BlockTree) (ops : List TreeOp) :
    t.highest_qc ≤ (ops.foldl BlockTree.apply_op t).highest_qc ∧
    t.highest_commit_cert ≤ (ops.foldl BlockTree.apply_op t).highest_commit_cert ∧
    (∀ b : BlockRec, (t.insert_block b).2.highest_qc ≠ t.highest_qc →
      t.highest_qc < b.qc_round ∧ (t.insert_block b).2.highest_qc = b.qc_round) := by
  have hfold : ∀ (s : BlockTree),
      s.highest_qc ≤ (ops.foldl BlockTree.apply_op s).highest_qc ∧
      s.highest_commit_cert ≤ (ops.foldl BlockTree.apply_op s).highest_commit_cert := by
    induction ops with
    | nil => exact fun s => ⟨Nat.le_refl _, Nat.le_refl _⟩
    | cons op rest ih =>
      intro s
      constructor
      · exact Nat.le_trans (highest_le_apply_op s op).1 (ih (s.apply_op op)).1
      · exact Nat.le_trans (highest_le_apply_op s op).2 (ih (s.apply_op op)).2
  refine ⟨(hfold t).1, (hfold t).2, ?_⟩
  intro b hne
  cases hdup : findBlock t.blocks b.id with
  | some existing =>
    rw [insert_block_dup t b existing hdup] at hne
    exact absurd rfl hne
  | none =>
    cases hpar : findBlock t.blocks b.parent_id with
    | none =>
      rw [insert_block_no_parent t b hdup hpar] at hne
      exact absurd rfl hne
    | some p =>
      by_cases hr : b.round ≤ p.round
      · rw [insert_block_bad_round t b p hdup hpar hr] at hne
        exact absurd rfl hne
      · rw [insert_block_ok t b p hdup hpar hr] at hne ⊢
        by_cases hq : t.highest_qc_round < b.qc_round
        · refine ⟨hq, ?_⟩
          show (if t.highest_qc_round < b.qc_round then b.qc_round
            else t.highest_qc_round) = b.qc_round
          rw [if_pos hq]
        · exfalso
          apply hne
          show (if t.highest_qc_round < b.qc_round then b.qc_round
            else t.highest_qc_round) = t.highest_qc
          rw [if_neg hq]
          rfl

/-- Witness for C8: a concrete operation sequence and a concrete insert
that does advance the highest QC. -/
theorem highest_rounds_monotone_witness :
    BlockTree.highest_qc ⟨0, [⟨0, 99, 0, 0, 0⟩], 0, 0⟩ ≤
      (List.foldl BlockTree.apply_op ⟨0, [⟨0, 99, 0, 0, 0⟩], 0, 0⟩
        [.insertOp ⟨1, 0, 1, 0, 1⟩, .commitOp 1]).highest_qc ∧
    (BlockTree.insert_block ⟨0, [⟨0, 99, 0, 0, 0⟩], 0, 0⟩
        ⟨2, 0, 2, 1, 0⟩).2.highest_qc ≠
      BlockTree.highest_qc ⟨0, [⟨0, 99, 0, 0, 0⟩], 0, 0⟩ ∧
    BlockTree.highest_qc ⟨0, [⟨0, 99, 0, 0, 0⟩], 0, 0⟩ <
      BlockRec.qc_round ⟨2, 0, 2, 1, 0⟩ ∧
    (BlockTree.insert_block ⟨0, [⟨0, 99, 0, 0, 0⟩], 0, 0⟩
        ⟨2, 0, 2, 1, 0⟩).2.highest_qc = BlockRec.qc_round ⟨2, 0, 2, 1, 0⟩ := by
  have hne : (BlockTree.insert_block ⟨0, [⟨0, 99, 0, 0, 0⟩], 0, 0⟩
      ⟨2, 0, 2, 1, 0⟩).2.highest_qc ≠
      BlockTree.highest_qc ⟨0, [⟨0, 99, 0, 0, 0⟩], 0, 0⟩ := by decide
  have h := highest_rounds_monotone ⟨0, [⟨0, 99, 0, 0, 0⟩], 0, 0⟩
    [.insertOp ⟨1, 0, 1, 0, 1⟩, .commitOp 1]
  exact ⟨h.1, hne, (h.2.2 ⟨2, 0, 2, 1, 0⟩ hne).1, (h.2.2 ⟨2, 0, 2, 1, 0⟩ hne).2⟩

/-! ### The quorum certificate engine (§4.2, §9) -/

/-- Modelled from the spec: a `Vote` as the QC engine consumes it — the
author and the endorsed `(block_id, round)`.  Signature validity is
modelled as membership of the author in the validator set. -/
structure Vote : Type where
  author : Author
  block_id : BlockId
  round : Round
deriving DecidableEq, Repr

/-- Modelled from the spec: a `QuorumCert` — the certified
`(block_id, round)` and the aggregated signatures, as the recorded
voters. -/
structure QuorumCert : Type where
  block_id : BlockId
  round : Round
  voters : List Author
deriving DecidableEq, Repr

/-- `VoteReceiptStatus` (§4.2, §9): the explicit finite-state result of
`add_vote`. -/
inductive VoteReceiptStatus : Type
  | QCFormed (qc : QuorumCert)
  | Pending
  | StaleVote
  | InvalidSignature
deriving DecidableEq, Repr

/-- Modelled from the spec: the QC engine state — the validator set with
voting weights, the quorum threshold, the committed root round (votes at
or below it are stale), and the per-`(block_id, round)` buckets of
recorded voters. -/
structure QcEngine : Type where
  validators : List (Author × Nat)
  quorum_threshold : Nat
  root_round : Round
  pending : List ((BlockId × Round) × List Author)
deriving DecidableEq, Repr

/-- Combined voting power of a list of authors. -/
def voting_power (validators : List (Author × Nat)) (authors : List Author) : Nat :=
  (authors.map (fun a => (alookup validators a).getD 0)).sum

/-- The voter bucket for `(v.block_id, v.round)` after recording `v`:
unchanged if the author already voted in this bucket (a second vote from
the same author never contributes twice to one QC), extended otherwise. -/
def QcEngine.recorded_after (e : QcEngine) (v : Vote) : List Author :=
  let prev := (alookup e.pending (v.block_id, v.round)).getD []
  if v.author ∈ prev then prev else v.author :: prev

/-- Modelled from the spec: `add_vote(vote)` (§4.2).  An author outside
the validator set fails signature verification; a vote at or below the
committed root round is stale; otherwise the vote is recorded in its
`(block_id, round)` bucket (deduplicated per author) and a QC aggregating
the recorded voters is synthesized exactly when their accumulated power
reaches the quorum threshold. -/
def QcEngine.add_vote (e : QcEngine) (v : Vote) :
    VoteReceiptStatus × QcEngine :=
  if (alookup e.validators v.author).isNone then (.InvalidSignature, e)
  else if v.round ≤ e.root_round then (.StaleVote, e)
  else
    let recorded := e.recorded_after v
    let e2 := { e with pending := ainsert e.pending (v.block_id, v.round) recorded }
    if e.quorum_threshold ≤ voting_power e.validators recorded then
      (.QCFormed ⟨v.block_id, v.round, recorded⟩, e2)
    else (.Pending, e2)

theorem add_vote_invalid (e : QcEngine) (v : Vote)
    (h : (alookup e.validators v.author).isNone = true) :
    e.add_vote v = (.InvalidSignature, e) := by
  unfold QcEngine.add_vote
  rw [if_pos h]

theorem add_vote_stale (e : QcEngine) (v : Vote)
    (h : ¬ (alookup e.validators v.author).isNone = true)
    (hs : v.round ≤ e.root_round) :
    e.add_vote v = (.StaleVote, e) := by
  unfold QcEngine.add_vote
  rw [if_neg h, if_pos hs]

theorem add_vote_counted (e : QcEngine) (v : Vote)
    (h : ¬ (alookup e.validators v.author).isNone = true)
    (hs : ¬ v.round ≤ e.root_round) :
    e.add_vote v =
      (if e.quorum_threshold ≤ voting_power e.validators (e.recorded_after v) then
        (.QCFormed ⟨v.block_id, v.round, e.recorded_after v⟩,
          { e with pending := ainsert e.pending (v.block_id, v.round) (e.recorded_after v) })
      else
        (.Pending,
          { e with pending := ainsert e.pending (v.block_id, v.round) (e.recorded_after v) })) := by
  unfold QcEngine.add_vote
  rw [if_neg h, if_neg hs]

/-- Claim C4: `add_vote` returns `QCFormed` exactly when the vote is
valid, not stale, and the accumulated voting power of its
`(block_id, round)` bucket reaches the quorum threshold; and with four
equal-weight-1 validators, a quorum threshold of 3 and an empty bucket,
three distinct valid votes for the same `(block_id, round)` yield
`Pending`, `Pending`, then `QCFormed` aggregating the three voters. -/
theorem add_vote_quorum (e : QcEngine) (v : Vote) (a1 a2 a3 : Author)
    (bid : BlockId) (r : Round) :
    ((∃ qc, (e.add_vote v).1 = .QCFormed qc) ↔
      ((alookup e.validators v.author).isSome ∧ e.root_round < v.round ∧
        e.quorum_threshold ≤ voting_power e.validators (e.recorded_after v))) ∧
    (e.validators.length = 4 →
     e.quorum_threshold = 3 →
     alookup e.validators a1 = some 1 →
     alookup e.validators a2 = some 1 →
     alookup e.validators a3 = some 1 →
     a1 ≠ a2 → a1 ≠ a3 → a2 ≠ a3 →
     alookup e.pending (bid, r) = none →
     e.root_round < r →
     (e.add_vote ⟨a1, bid, r⟩).1 = .Pending ∧
     ((e.add_vote ⟨a1, bid, r⟩).2.add_vote ⟨a2, bid, r⟩).1 = .Pending ∧
     (((e.add_vote ⟨a1, bid, r⟩).2.add_vote ⟨a2, bid, r⟩).2.add_vote
         ⟨a3, bid, r⟩).1 =
       .QCFormed ⟨bid, r, [a3, a2, a1]⟩) := by
  constructor
  · constructor
    · intro ⟨qc, hqc⟩
      by_cases h : (alookup e.validators v.author).isNone = true
      · rw [add_vote_invalid e v h] at hqc
        exact absurd hqc (by simp)
      · by_cases hs : v.round ≤ e.root_round
        · rw [add_vote_stale e v h hs] at hqc
          exact absurd hqc (by simp)
        · refine ⟨by simpa [Option.isNone_iff_eq_none, Option.isSome_iff_exists,
            Option.ne_none_iff_exists'] using h, Nat.lt_of_not_le hs, ?_⟩
          rw [add_vote_counted e v h hs] at hqc
          by_cases hth : e.quorum_threshold ≤
              voting_power e.validators (e.recorded_after v)
          · exact hth
          · rw [if_neg hth] at hqc
            exact absurd hqc (by simp)
    · intro ⟨hval, hstale, hth⟩
      have h : ¬ (alookup e.validators v.author).isNone = true := by
        simp [Option.isNone_iff_eq_none]
        intro hcontra
        rw [hcontra] at hval
        simp at hval
      have hs : ¬ v.round ≤ e.root_round := Nat.not_le_of_lt hstale
      rw [add_vote_counted e v h hs, if_pos hth]
      exact ⟨⟨v.block_id, v.round, e.recorded_after v⟩, rfl⟩
  · intro hlen hth ha1 ha2 ha3 h12 h13 h23 hbucket hr
    have hn1 : ¬ (alookup e.validators a1).isNone = true := by
      rw [ha1]; simp
    have hs : ¬ (r ≤ e.root_round) := Nat.not_le_of_lt hr
    have hrec1 : e.recorded_after ⟨a1, bid, r⟩ = [a1] := by
      unfold QcEngine.recorded_after
      simp [hbucket]
    have hstep1 : e.add_vote ⟨a1, bid, r⟩ =
        (.Pending, { e with pending := ainsert e.pending (bid, r) [a1] }) := by
      rw [add_vote_counted e ⟨a1, bid, r⟩ hn1 hs, hrec1]
      rw [if_neg (by simp [voting_power, ha1, hth])]
    set e1 : QcEngine := { e with pending := ainsert e.pending (bid, r) [a1] }
      with he1
    have hn2 : ¬ (alookup e1.validators a2).isNone = true := by
      rw [he1]; simp [ha2]
    have hrec2 : e1.recorded_after ⟨a2, bid, r⟩ = [a2, a1] := by
      unfold QcEngine.recorded_after
      rw [he1]
      simp [alookup_ainsert_self, h12.symm]
    have hstep2 : e1.add_vote ⟨a2, bid, r⟩ =
        (.Pending, { e1 with pending := ainsert e1.pending (bid, r) [a2, a1] }) := by
      rw [add_vote_counted e1 ⟨a2, bid, r⟩ hn2 hs, hrec2]
      rw [if_neg (by simp [voting_power, he1, ha1, ha2, hth])]
    set e2 : QcEngine := { e1 with pending := ainsert e1.pending (bid, r) [a2, a1] }
      with he2
    have hn3 : ¬ (alookup e2.validators a3).isNone = true := by
      rw [he2, he1]
      simp [ha3]
    have hrec3 : e2.recorded_after ⟨a3, bid, r⟩ = [a3, a2, a1] := by
      unfold QcEngine.recorded_after
      rw [he2]
      simp [alookup_ainsert_self, h13.symm, h23.symm]
    have hstep3 : (e2.add_vote ⟨a3, bid, r⟩).1 = .QCFormed ⟨bid, r, [a3, a2, a1]⟩ := by
      rw [add_vote_counted e2 ⟨a3, bid, r⟩ hn3 hs, hrec3]
      rw [if_pos (by simp [voting_power, he2, he1, ha1, ha2, ha3, hth])]
    refine ⟨by rw [hstep1], ?_, ?_⟩
    · rw [hstep1]
      show (e1.add_vote ⟨a2, bid, r⟩).1 = .Pending
      rw [hstep2]
    · rw [hstep1]
      show ((e1.add_vote ⟨a2, bid, r⟩).2.add_vote ⟨a3, bid, r⟩).1 =
        .QCFormed ⟨bid, r, [a3, a2, a1]⟩
      rw [hstep2]
      exact hstep3

/-- Witness for C4: four validators `0,1,2,3` of weight 1, threshold 3,
votes from `0`, `1`, `2` for block 9 at round 1. -/
theorem add_vote_quorum_witness :
    (QcEngine.add_vote ⟨[(0, 1), (1, 1), (2, 1), (3, 1)], 3, 0, []⟩
        ⟨0, 9, 1⟩).1 = .Pending ∧
    ((QcEngine.add_vote ⟨[(0, 1), (1, 1), (2, 1), (3, 1)], 3, 0, []⟩
        ⟨0, 9, 1⟩).2.add_vote ⟨1, 9, 1⟩).1 = .Pending ∧
    (((QcEngine.add_vote ⟨[(0, 1), (1, 1), (2, 1), (3, 1)], 3, 0, []⟩
        ⟨0, 9, 1⟩).2.add_vote ⟨1, 9, 1⟩).2.add_vote ⟨2, 9, 1⟩).1 =
      .QCFormed ⟨9, 1, [2, 1, 0]⟩ :=
  (add_vote_quorum ⟨[(0, 1), (1, 1), (2, 1), (3, 1)], 3, 0, []⟩ ⟨0, 9, 1⟩
    0 1 2 9 1).2 rfl rfl rfl rfl rfl (by decide) (by decide) (by decide)
    rfl (by decide)

/-! ### Commit and pruning (claim C5): facts about the ancestor walk -/

theorem findBlock_eq_some_id (blocks : List BlockRec) (id : BlockId)
    (b : BlockRec) (h : findBlock blocks id = some b) : b.id = id := by
  induction blocks with
  | nil => exact Option.noConfusion h
  | cons z rest ih =>
    unfold findBlock at h
    by_cases hz : z.id = id
    · rw [if_pos hz] at h
      rw [← Option.some.inj h]
      exact hz
    · rw [if_neg hz] at h
      exact ih h

theorem findBlock_eq_some_mem (blocks : List BlockRec) (id : BlockId)
    (b : BlockRec) (h : findBlock blocks id = some b) : b ∈ blocks := by
  induction blocks with
  | nil => exact Option.noConfusion h
  | cons z rest ih =>
    unfold findBlock at h
    by_cases hz : z.id = id
    · rw [if_pos hz] at h
      rw [← Option.some.inj h]
      exact List.mem_cons_self z rest
    · rw [if_neg hz] at h
      exact List.mem_cons_of_mem z (ih h)

theorem findBlock_isSome_of_mem (blocks : List BlockRec) (b : BlockRec)
    (h : b ∈ blocks) : (findBlock blocks b.id).isSome = true := by
  induction blocks with
  | nil => simp at h
  | cons z rest ih =>
    unfold findBlock
    by_cases hz : z.id = b.id
    · rw [if_pos hz]; rfl
    · rw [if_neg hz]
      rcases List.mem_cons.mp h with rfl | hmem
      · exact absurd rfl hz
      · exact ih hmem

theorem distinctIds_cons (b : BlockRec) (rest : List BlockRec)
    (h : distinctIds (b :: rest) = true) :
    findBlock rest b.id = none ∧ distinctIds rest = true := by
  unfold distinctIds at h
  rw [Bool.and_eq_true, Option.isNone_iff_eq_none] at h
  exact h

theorem findBlock_of_mem_distinct (blocks : List BlockRec) (b : BlockRec)
    (hdist : distinctIds blocks = true) (h : b ∈ blocks) :
    findBlock blocks b.id = some b := by
  induction blocks with
  | nil => simp at h
  | cons z rest ih =>
    obtain ⟨hz, hrest⟩ := distinctIds_cons z rest hdist
    rcases List.mem_cons.mp h with rfl | hmem
    · unfold findBlock
      rw [if_pos rfl]
    · unfold findBlock
      by_cases hzb : z.id = b.id
      · exfalso
        have := findBlock_isSome_of_mem rest b hmem
        rw [← hzb, hz] at this
        exact Bool.noConfusion this
      · rw [if_neg hzb]
        exact ih hrest hmem

theorem findBlock_cons (z : BlockRec) (rest : List BlockRec) (id : BlockId) :
    findBlock (z :: rest) id =
      if z.id = id then some z else findBlock rest id := rfl

theorem findBlock_filter (blocks : List BlockRec) (p : BlockRec → Bool)
    (hdist : distinctIds blocks = true) (id : BlockId) :
    findBlock (blocks.filter p) id =
      match findBlock blocks id with
      | some b => if p b then some b else none
      | none => none := by
  induction blocks with
  | nil => rfl
  | cons z rest ih =>
    obtain ⟨hz, hrest⟩ := distinctIds_cons z rest hdist
    by_cases hpz : p z
    · rw [List.filter_cons_of_pos hpz, findBlock_cons, findBlock_cons]
      by_cases hid : z.id = id
      · rw [if_pos hid, if_pos hid]
        simp [hpz]
      · rw [if_neg hid, if_neg hid]
        exact ih hrest
    · rw [List.filter_cons_of_neg (by simpa using hpz), findBlock_cons]
      by_cases hid : z.id = id
      · rw [if_pos hid, ih hrest, ← hid, hz]
        simp [hpz]
      · rw [if_neg hid]
        exact ih hrest

theorem chainAux_zero (blocks : List BlockRec) (id stop : BlockId) :
    chainAux blocks 0 id stop = none := rfl

theorem chainAux_succ_inv (blocks : List BlockRec) (f : Nat) (id stop : BlockId)
    (l : List BlockRec) (h : chainAux blocks (f + 1) id stop = some l) :
    (id = stop ∧ l = []) ∨
    (id ≠ stop ∧ ∃ b l0, findBlock blocks id = some b ∧
      chainAux blocks f b.parent_id stop = some l0 ∧ l = l0 ++ [b]) := by
  unfold chainAux at h
  split at h
  · rename_i hid
    exact Or.inl ⟨hid, (Option.some.inj h).symm⟩
  · rename_i hid
    split at h
    · exact Option.noConfusion h
    · rename_i b hfb
      split at h
      · exact Option.noConfusion h
      · rename_i l0 hca
        exact Or.inr ⟨hid, b, l0, hfb, hca, (Option.some.inj h).symm⟩

theorem chainAux_self (blocks : List BlockRec) (f : Nat) (stop : BlockId) :
    chainAux blocks (f + 1) stop stop = some [] := by
  unfold chainAux
  rw [if_pos rfl]

theorem chainAux_step (blocks : List BlockRec) (f : Nat) (id stop : BlockId)
    (b : BlockRec) (l0 : List BlockRec) (hid : id ≠ stop)
    (hfb : findBlock blocks id = some b)
    (hca : chainAux blocks f b.parent_id stop = some l0) :
    chainAux blocks (f + 1) id stop = some (l0 ++ [b]) := by
  unfold chainAux
  rw [if_neg hid]
  simp only [hfb, hca]

theorem chainAux_fuel_mono (blocks : List BlockRec) :
    ∀ (f f2 : Nat) (id stop : BlockId) (l : List BlockRec),
      chainAux blocks f id stop = some l → f ≤ f2 →
      chainAux blocks f2 id stop = some l := by
  intro f
  induction f with
  | zero =>
    intro f2 id stop l h
    exact absurd h (by simp [chainAux_zero])
  | succ f ih =>
    intro f2 id stop l h hle
    obtain ⟨f2p, rfl⟩ : ∃ f2p, f2 = f2p + 1 := ⟨f2 - 1, by omega⟩
    rcases chainAux_succ_inv blocks f id stop l h with ⟨hid, rfl⟩ |
      ⟨hid, b, l0, hfb, hca, rfl⟩
    · rw [hid]
      exact chainAux_self blocks f2p stop
    · exact chainAux_step blocks f2p id stop b l0 hid hfb
        (ih f2p b.parent_id stop l0 hca (by omega))

theorem chainAux_fuel_min (blocks : List BlockRec) :
    ∀ (f : Nat) (id stop : BlockId) (l : List BlockRec),
      chainAux blocks f id stop = some l →
      chainAux blocks (l.length + 1) id stop = some l := by
  intro f
  induction f with
  | zero =>
    intro id stop l h
    exact absurd h (by simp [chainAux_zero])
  | succ f ih =>
    intro id stop l h
    rcases chainAux_succ_inv blocks f id stop l h with ⟨hid, rfl⟩ |
      ⟨hid, b, l0, hfb, hca, rfl⟩
    · rw [hid]
      exact chainAux_self blocks 0 stop
    · have h0 := ih b.parent_id stop l0 hca
      have hlen : (l0 ++ [b]).length + 1 = (l0.length + 1) + 1 := by simp
      rw [hlen]
      exact chainAux_step blocks (l0.length + 1) id stop b l0 hid hfb h0

theorem chainAux_mem_facts (blocks : List BlockRec) :
    ∀ (f : Nat) (id stop : BlockId) (l : List BlockRec),
      chainAux blocks f id stop = some l →
      ∀ y ∈ l, findBlock blocks y.id = some y ∧ y.id ≠ stop ∧
        ∃ l2, chainAux blocks (l2.length + 1) y.id stop = some l2 ∧
          l2.length ≤ l.length := by
  intro f
  induction f with
  | zero =>
    intro id stop l h
    exact absurd h (by simp [chainAux_zero])
  | succ f ih =>
    intro id stop l h y hy
    rcases chainAux_succ_inv blocks f id stop l h with ⟨hid, rfl⟩ |
      ⟨hid, b, l0, hfb, hca, rfl⟩
    · simp at hy
    · rcases List.mem_append.mp hy with hy0 | hyb
      · obtain ⟨hfind, hne, l2, hl2, hlen⟩ := ih b.parent_id stop l0 hca y hy0
        refine ⟨hfind, hne, l2, hl2, ?_⟩
        simp only [List.length_append, List.length_cons, List.length_nil]
        omega
      · have hyb2 : y = b := by simpa using hyb
        subst hyb2
        have hbid : y.id = id := findBlock_eq_some_id blocks id y hfb
        refine ⟨by rw [hbid]; exact hfb, by rw [hbid]; exact hid,
          l0 ++ [y], ?_, Nat.le_refl _⟩
        rw [hbid]
        exact chainAux_fuel_min blocks (f + 1) id stop (l0 ++ [y]) h

/-! Extraction of the well-formedness facts from `wfB`. -/

theorem wf_distinct (t : BlockTree) (hwf : wfB t = true) :
    distinctIds t.blocks = true := by
  unfold wfB at hwf
  simp only [Bool.and_eq_true] at hwf
  exact hwf.1.1.1

theorem wf_parent (t : BlockTree) (hwf : wfB t = true) :
    ∀ b ∈ t.blocks, b.id ≠ t.root_id →
      ∃ p, findBlock t.blocks b.parent_id = some p ∧ p.round < b.round := by
  unfold wfB at hwf
  simp only [Bool.and_eq_true, List.all_eq_true] at hwf
  intro b hb hbne
  have h := hwf.1.2 b hb
  rw [Bool.or_eq_true] at h
  rcases h with h | h
  · exact absurd (by simpa using h) hbne
  · cases hfp : findBlock t.blocks b.parent_id with
    | none => rw [hfp] at h; exact Bool.noConfusion h
    | some p =>
      rw [hfp] at h
      exact ⟨p, rfl, by simpa using h⟩

theorem wf_reaches (t : BlockTree) (hwf : wfB t = true) :
    ∀ b ∈ t.blocks,
      (chainAux t.blocks (t.blocks.length + 1) b.id t.root_id).isSome = true := by
  unfold wfB at hwf
  simp only [Bool.and_eq_true, List.all_eq_true] at hwf
  exact hwf.2

/-- Along a successful walk to the root of a well-formed tree, rounds
strictly increase (the returned chain is ordered oldest first). -/
theorem chainAux_chain_round_lt (t : BlockTree) (hwf : wfB t = true) :
    ∀ (f : Nat) (id : BlockId) (l : List BlockRec),
      chainAux t.blocks f id t.root_id = some l →
      List.Chain' (fun a b => a.round < b.round) l := by
  intro f
  induction f with
  | zero =>
    intro id l h
    exact absurd h (by simp [chainAux_zero])
  | succ f ih =>
    intro id l h
    rcases chainAux_succ_inv t.blocks f id t.root_id l h with ⟨hid, rfl⟩ |
      ⟨hid, b, l0, hfb, hca, rfl⟩
    · exact List.chain'_nil
    · have hl0 := ih b.parent_id l0 hca
      rw [List.chain'_append]
      refine ⟨hl0, List.chain'_singleton _, ?_⟩
      intro x hx y hy
      have hyb : b = y := by simpa using hy
      cases f with
      | zero => exact absurd hca (by simp [chainAux_zero])
      | succ fp =>
        rcases chainAux_succ_inv t.blocks fp b.parent_id t.root_id l0 hca with
          ⟨hpid, heq⟩ | ⟨hpid, pb, l00, hpfb, hpca, heq⟩
        · rw [heq] at hx
          simp at hx
        · have hlast : l0.getLast? = some pb := by
            rw [heq]
            exact List.getLast?_concat _
          rw [hlast] at hx
          have hxpb : pb = x := by simpa using hx
          have hbmem : b ∈ t.blocks := findBlock_eq_some_mem t.blocks id b hfb
          have hbid : b.id = id := findBlock_eq_some_id t.blocks id b hfb
          obtain ⟨p, hp, hpr⟩ := wf_parent t hwf b hbmem (by rw [hbid]; exact hid)
          have hpbp : pb = p := by
            rw [hpfb] at hp
            exact Option.some.inj hp
          rw [← hyb, ← hxpb, hpbp]
          exact hpr

/-- A chain with strictly increasing rounds has no duplicates. -/
theorem chain_round_lt_nodup (l : List BlockRec)
    (h : List.Chain' (fun a b => a.round < b.round) l) : l.Nodup := by
  haveI : IsTrans BlockRec (fun a b => a.round < b.round) :=
    ⟨fun a b c h1 h2 => Nat.lt_trans h1 h2⟩
  have hp : l.Pairwise (fun a b => a.round < b.round) :=
    List.chain'_iff_pairwise.mp h
  exact hp.imp (fun hlt heq => absurd hlt (by rw [heq]; exact lt_irrefl _))

/-- The walk is insensitive to pruning: in the arena restricted to blocks
satisfying `p`, a walk whose every element satisfies `p` still succeeds
and returns the same chain, given enough fuel. -/
theorem chainAux_filter (blocks : List BlockRec) (p : BlockRec → Bool)
    (hdist : distinctIds blocks = true) :
    ∀ (f : Nat) (id stop : BlockId) (l : List BlockRec),
      chainAux blocks f id stop = some l →
      (∀ y ∈ l, p y = true) →
      ∀ f2, l.length + 1 ≤ f2 →
        chainAux (blocks.filter p) f2 id stop = some l := by
  intro f
  induction f with
  | zero =>
    intro id stop l h
    exact absurd h (by simp [chainAux_zero])
  | succ f ih =>
    intro id stop l h hsurv f2 hf2
    obtain ⟨f2p, rfl⟩ : ∃ f2p, f2 = f2p + 1 := ⟨f2 - 1, by omega⟩
    rcases chainAux_succ_inv blocks f id stop l h with ⟨hid, rfl⟩ |
      ⟨hid, b, l0, hfb, hca, rfl⟩
    · rw [hid]
      exact chainAux_self _ f2p stop
    · have hpb : p b = true := hsurv b (by simp)
      have hfb2 : findBlock (blocks.filter p) id = some b := by
        rw [findBlock_filter blocks p hdist id, hfb]
        simp [hpb]
      have hlen : l0.length + 1 ≤ f2p := by
        have h1 : (l0 ++ [b]).length = l0.length + 1 := by simp
        omega
      have hca2 := ih b.parent_id stop l0 hca
        (fun y hy => hsurv y (List.mem_append.mpr (Or.inl hy))) f2p hlen
      exact chainAux_step _ f2p id stop b l0 hid hfb2 hca2

theorem chainAux_deterministic (blocks : List BlockRec) (f1 f2 : Nat)
    (x stop : BlockId) (l l2 : List BlockRec)
    (h1 : chainAux blocks f1 x stop = some l)
    (h2 : chainAux blocks f2 x stop = some l2) : l = l2 := by
  have m1 := chainAux_fuel_mono blocks f1 (f1 + f2) x stop l h1 (by omega)
  have m2 := chainAux_fuel_mono blocks f2 (f1 + f2) x stop l2 h2 (by omega)
  rw [m1] at m2
  exact Option.some.inj m2

/-- A successful parent walk never revisits a block: the walk is
deterministic, so a revisit would loop forever and never reach `stop`. -/
theorem chainAux_nodup (blocks : List BlockRec) :
    ∀ (f : Nat) (x stop : BlockId) (l : List BlockRec),
      chainAux blocks f x stop = some l → l.Nodup := by
  intro f
  induction f with
  | zero =>
    intro x stop l h
    exact absurd h (by simp [chainAux_zero])
  | succ f ih =>
    intro x stop l h
    rcases chainAux_succ_inv blocks f x stop l h with ⟨hid, rfl⟩ |
      ⟨hid, b, l0, hfb, hca, rfl⟩
    · exact List.nodup_nil
    · have hnl0 := ih b.parent_id stop l0 hca
      rw [List.nodup_append]
      refine ⟨hnl0, List.nodup_singleton _, ?_⟩
      intro a ha hb
      have hab : a = b := by simpa using hb
      subst hab
      have haid : a.id = x := findBlock_eq_some_id blocks x a hfb
      obtain ⟨hfind, hne, l2, hl2, hlen⟩ :=
        chainAux_mem_facts blocks f a.parent_id stop l0 hca a ha
      have hdet : l2 = l0 ++ [a] :=
        chainAux_deterministic blocks (l2.length + 1) (f + 1) a.id stop l2
          (l0 ++ [a]) hl2 (by rw [haid]; exact h)
      rw [hdet] at hlen
      simp only [List.length_append, List.length_cons, List.length_nil] at hlen
      omega

theorem commit_eq_of_path (t : BlockTree) (id : BlockId)
    (committed : List BlockRec) (hpre : t.path_from_root id = some committed) :
    t.commit id = (committed,
      { t with
        root_id := id,
        blocks := t.blocks.filter (fun b => descendsB t.blocks b.id id),
        highest_commit_round :=
          if t.highest_commit_round <
              (match findBlock t.blocks id with
               | some b => b.round
               | none => t.highest_commit_round) then
            (match findBlock t.blocks id with
             | some b => b.round
             | none => t.highest_commit_round)
          else t.highest_commit_round }) := by
  unfold BlockTree.commit
  rw [hpre]

/-- Claim C5: for a well-formed tree and a `block_id` satisfying the
commit precondition (live and descending from the root, witnessed by its
`path_from_root` chain), `commit` returns exactly that chain — the newly
committed blocks, ordered oldest first (rounds strictly increase) —
advances the root pointer to `block_id`, keeps exactly the new root and
its descendants (removing every sibling branch and everything below the
new root), makes every pruned block invisible to tree queries, and for
every surviving block `path_from_root` afterwards returns exactly its
ancestor chain back to the new root. -/
theorem commit_prunes_to_descendants (t : BlockTree) (id : BlockId)
    (committed : List BlockRec) (hwf : wfB t = true)
    (hpre : t.path_from_root id = some committed) :
    (t.commit id).1 = committed ∧
    (t.commit id).2.root_id = id ∧
    (∀ b ∈ t.blocks,
      (b ∈ (t.commit id).2.blocks ↔ descendsB t.blocks b.id id = true)) ∧
    (∀ b ∈ t.blocks, descendsB t.blocks b.id id = false →
      (t.commit id).2.block_exists b.id = false) ∧
    List.Chain' (fun a b => a.round < b.round) committed ∧
    (∀ b ∈ (t.commit id).2.blocks,
      (t.commit id).2.path_from_root b.id =
        chainAux t.blocks (t.blocks.length + 1) b.id id) := by
  have hdist := wf_distinct t hwf
  have hc := commit_eq_of_path t id committed hpre
  have hblocks : (t.commit id).2.blocks =
      t.blocks.filter (fun b => descendsB t.blocks b.id id) := by
    rw [hc]
  have hroot : (t.commit id).2.root_id = id := by
    rw [hc]
  refine ⟨by rw [hc], hroot, ?_, ?_, ?_, ?_⟩
  · intro b hb
    rw [hblocks]
    constructor
    · intro h
      exact (List.mem_filter.mp h).2
    · intro h
      exact List.mem_filter.mpr ⟨hb, h⟩
  · intro b hb hdesc
    unfold BlockTree.block_exists
    rw [hblocks, findBlock_filter t.blocks _ hdist b.id,
      findBlock_of_mem_distinct t.blocks b hdist hb]
    simp [hdesc]
  · unfold BlockTree.path_from_root at hpre
    exact chainAux_chain_round_lt t hwf _ id committed hpre
  · intro b hb
    rw [hblocks] at hb
    obtain ⟨hbmem, hbdesc⟩ := List.mem_filter.mp hb
    obtain ⟨l, hl⟩ := Option.isSome_iff_exists.mp hbdesc
    have hlnodup : l.Nodup := chainAux_nodup t.blocks _ b.id id l hl
    have hlsub : ∀ y ∈ l, y ∈ t.blocks := fun y hy =>
      findBlock_eq_some_mem t.blocks y.id y
        (chainAux_mem_facts t.blocks _ b.id id l hl y hy).1
    have hllen : l.length ≤ t.blocks.length :=
      (hlnodup.subperm hlsub).length_le
    have hsurv : ∀ y ∈ l, descendsB t.blocks y.id id = true := by
      intro y hy
      obtain ⟨_, _, l2, hl2, hlen2⟩ :=
        chainAux_mem_facts t.blocks _ b.id id l hl y hy
      unfold descendsB
      rw [chainAux_fuel_mono t.blocks (l2.length + 1) (t.blocks.length + 1)
        y.id id l2 hl2 (by omega)]
      rfl
    have hlkeep : ∀ y ∈ l, y ∈ t.blocks.filter (fun b => descendsB t.blocks b.id id) :=
      fun y hy => List.mem_filter.mpr ⟨hlsub y hy, hsurv y hy⟩
    have hklen : l.length ≤
        (t.blocks.filter (fun b => descendsB t.blocks b.id id)).length :=
      (hlnodup.subperm hlkeep).length_le
    unfold BlockTree.path_from_root
    rw [hblocks, hroot, hl]
    exact chainAux_filter t.blocks _ hdist (t.blocks.length + 1) b.id id l hl
      hsurv _ (by omega)

/-- Witness for C5: committing block 2 of a tree with a genesis, a chain
`1 ← 2 ← 3` and a sibling branch `4` prunes the sibling and genesis,
returns the chain `[1, 2]`, and preserves `path_from_root` for the
survivors. -/
theorem commit_prunes_to_descendants_witness :
    wfB ⟨0, [⟨3, 2, 3, 2, 0⟩, ⟨4, 1, 4, 1, 0⟩, ⟨2, 1, 2, 1, 0⟩, ⟨1, 0, 1, 0, 0⟩,
      ⟨0, 99, 0, 0, 0⟩], 0, 0⟩ = true ∧
    BlockTree.path_from_root ⟨0, [⟨3, 2, 3, 2, 0⟩, ⟨4, 1, 4, 1, 0⟩,
      ⟨2, 1, 2, 1, 0⟩, ⟨1, 0, 1, 0, 0⟩, ⟨0, 99, 0, 0, 0⟩], 0, 0⟩ 2 =
      some [⟨1, 0, 1, 0, 0⟩, ⟨2, 1, 2, 1, 0⟩] ∧
    (BlockTree.commit ⟨0, [⟨3, 2, 3, 2, 0⟩, ⟨4, 1, 4, 1, 0⟩, ⟨2, 1, 2, 1, 0⟩,
      ⟨1, 0, 1, 0, 0⟩, ⟨0, 99, 0, 0, 0⟩], 0, 0⟩ 2).1 =
      [⟨1, 0, 1, 0, 0⟩, ⟨2, 1, 2, 1, 0⟩] ∧
    (BlockTree.commit ⟨0, [⟨3, 2, 3, 2, 0⟩, ⟨4, 1, 4, 1, 0⟩, ⟨2, 1, 2, 1, 0⟩,
      ⟨1, 0, 1, 0, 0⟩, ⟨0, 99, 0, 0, 0⟩], 0, 0⟩ 2).2.root_id = 2 ∧
    (BlockTree.commit ⟨0, [⟨3, 2, 3, 2, 0⟩, ⟨4, 1, 4, 1, 0⟩, ⟨2, 1, 2, 1, 0⟩,
      ⟨1, 0, 1, 0, 0⟩, ⟨0, 99, 0, 0, 0⟩], 0, 0⟩ 2).2.block_exists 4 = false ∧
    (BlockTree.commit ⟨0, [⟨3, 2, 3, 2, 0⟩, ⟨4, 1, 4, 1, 0⟩, ⟨2, 1, 2, 1, 0⟩,
      ⟨1, 0, 1, 0, 0⟩, ⟨0, 99, 0, 0, 0⟩], 0, 0⟩ 2).2.path_from_root 3 =
      chainAux [⟨3, 2, 3, 2, 0⟩, ⟨4, 1, 4, 1, 0⟩, ⟨2, 1, 2, 1, 0⟩,
        ⟨1, 0, 1, 0, 0⟩, ⟨0, 99, 0, 0, 0⟩] 6 3 2 := by
  have h := commit_prunes_to_descendants
    ⟨0, [⟨3, 2, 3, 2, 0⟩, ⟨4, 1, 4, 1, 0⟩, ⟨2, 1, 2, 1, 0⟩, ⟨1, 0, 1, 0, 0⟩,
      ⟨0, 99, 0, 0, 0⟩], 0, 0⟩ 2 [⟨1, 0, 1, 0, 0⟩, ⟨2, 1, 2, 1, 0⟩]
    (by decide) (by decide)
  refine ⟨by decide, by decide, h.1, h.2.1, ?_, ?_⟩
  · exact h.2.2.2.1 ⟨4, 1, 4, 1, 0⟩ (by decide) (by decide)
  · exact h.2.2.2.2.2 ⟨3, 2, 3, 2, 0⟩ (by decide)

end Bft

/-! ## Protocol-level safety (claim C1)

The event processor, the inter-replica protocol and its safety argument
(spec §4.3-§4.4, §8) concern repository code absent from the snapshot, so
this section models the protocol from the specification, at the level the
claim is stated: any number of replicas, some Byzantine, exchanging
Proposal/Vote/Timeout events.

A block is identified with its whole branch from genesis: a `Chain` of
`(round, payload)` entries (genesis is `[]`).  Two blocks conflict iff
neither chain is a prefix of the other.  A `Step` is one event:

* a Byzantine replica emits an arbitrary vote;
* an honest replica processes a proposal and votes, under the safety
  rules of §4.3 — the round exceeds its `last_voted_round`, the proposal
  carries a valid QC for its parent with a smaller round (§4.1), and the
  proposal either extends the block of the locked (highest seen) QC or
  carries a QC of a round higher than the lock's;
* any replica observes an existing QC (sync), raising its lock;
* a QC forms from a quorum of recorded votes for one block;
* a round timeout, which touches no safety-relevant state (§4.4: a pure
  liveness mechanism).

Honest vote records carry the justifying QC and the voter's lock at
decision time; Byzantine votes carry arbitrary placeholders and are never
constrained.  A `LedgerInfo` at round R is returned as committed exactly
when some block `B` at round R heads a certified contiguous 3-chain
(§4.3 `should_commit`). -/

namespace Proto

abbrev Author : Type := Nat

/-- A block as its full branch from genesis: `(round, payload)` entries. -/
abbrev Chain : Type := List (Nat × Nat)

/-- The round of a block: the round of its last entry (genesis: 0). -/
def chainRound (c : Chain) : Nat := ((c.getLast?).map Prod.fst).getD 0

/-- The parent block. -/
def parentChain (c : Chain) : Chain := c.dropLast

/-- `IsAncestor c1 c2`: block `c2` equals or descends from block `c1` —
the two are on one branch.  Commits on different branches are exactly the
pairs this relation fails to hold for in either direction. -/
def IsAncestor (c1 c2 : Chain) : Prop := ∃ s, c1 ++ s = c2

theorem IsAncestor.refl (c : Chain) : IsAncestor c c := ⟨[], List.append_nil c⟩

theorem IsAncestor.trans {a b c : Chain} (h1 : IsAncestor a b)
    (h2 : IsAncestor b c) : IsAncestor a c := by
  obtain ⟨s1, rfl⟩ := h1
  obtain ⟨s2, rfl⟩ := h2
  exact ⟨s1 ++ s2, (List.append_assoc a s1 s2).symm⟩

theorem parentChain_isAncestor (c : Chain) : IsAncestor (parentChain c) c := by
  cases hc : c.getLast? with
  | none =>
    have : c = [] := List.getLast?_eq_none_iff.mp hc
    rw [this]
    exact IsAncestor.refl []
  | some a =>
    refine ⟨[a], ?_⟩
    unfold parentChain
    exact List.dropLast_append_getLast? a hc

/-- A quorum certificate: the certified block and the recorded voters. -/
structure QC : Type where
  block : Chain
  voters : List Author
deriving DecidableEq, Repr

/-- The round a QC certifies. -/
def qcRound (q : QC) : Nat := chainRound q.block

/-- The axiomatic certificate for genesis every replica starts from. -/
def genesisQC : QC := ⟨[], []⟩

/-- A recorded vote.  For an honest vote, `justify` is the parent QC the
proposal carried and `lock` is the voter's locked QC when the safety rules
authorized the vote; for a Byzantine vote both are meaningless
placeholders. -/
structure VoteRec : Type where
  author : Author
  block : Chain
  justify : QC
  lock : QC
deriving DecidableEq, Repr

/-- The safety-relevant local state of one replica (§3
`PersistentLivenessData`, §9 `SafetyState`). -/
structure ReplicaState : Type where
  last_voted_round : Nat
  lock : QC
deriving DecidableEq, Repr

/-- The global protocol state: all votes ever sent, all QCs ever formed
(in formation order), and each replica's safety state. -/
structure GState : Type where
  votes : List VoteRec
  qcs : List QC
  replicas : Author → ReplicaState

/-- The initial state: no votes, only the genesis QC, every replica
starts unlocked at round 0. -/
def protoInit : GState := ⟨[], [genesisQC], fun _ => ⟨0, genesisQC⟩⟩

/-- Raise a replica's lock to a higher-round QC (`observeQC`). -/
def updLock (s : ReplicaState) (q : QC) : ReplicaState :=
  if qcRound s.lock < qcRound q then ⟨s.last_voted_round, q⟩ else s

/-- One protocol event (see the section comment). -/
inductive Step (byz : Author → Bool) (isQuorum : List Author → Prop) :
    GState → GState → Prop where
  | byzVote (st : GState) (a : Author) (c : Chain) (j L : QC)
      (hb : byz a = true) :
      Step byz isQuorum st
        { st with votes := st.votes ++ [⟨a, c, j, L⟩] }
  | honestVote (st : GState) (a : Author) (c : Chain) (j : QC)
      (hb : byz a = false)
      (hj : j ∈ st.qcs)
      (hjp : j.block = parentChain c)
      (hround : qcRound j < chainRound c)
      (hlast : (st.replicas a).last_voted_round < chainRound c)
      (hrule : IsAncestor (st.replicas a).lock.block c ∨
        qcRound (st.replicas a).lock < qcRound j) :
      Step byz isQuorum st
        { votes := st.votes ++ [⟨a, c, j, (st.replicas a).lock⟩],
          qcs := st.qcs,
          replicas := fun x =>
            if x = a then
              ⟨chainRound c,
                if qcRound (st.replicas a).lock < qcRound j then j
                else (st.replicas a).lock⟩
            else st.replicas x }
  | observeQC (st : GState) (a : Author) (q : QC) (hq : q ∈ st.qcs) :
      Step byz isQuorum st
        { st with replicas := fun x =>
            if x = a then updLock (st.replicas a) q else st.replicas x }
  | formQC (st : GState) (c : Chain) (voters : List Author)
      (hquorum : isQuorum voters)
      (hvotes : ∀ a ∈ voters, ∃ v ∈ st.votes, v.author = a ∧ v.block = c) :
      Step byz isQuorum st { st with qcs := st.qcs ++ [⟨c, voters⟩] }
  | timeout (st : GState) : Step byz isQuorum st st

/-- Reachability from the initial state. -/
inductive Reachable (byz : Author → Bool) (isQuorum : List Author → Prop) :
    GState → Prop where
  | init : Reachable byz isQuorum protoInit
  | step (st st2 : GState) (h : Reachable byz isQuorum st)
      (hs : Step byz isQuorum st st2) : Reachable byz isQuorum st2

/-- Zero or more further events. -/
inductive StepStar (byz : Author → Bool) (isQuorum : List Author → Prop) :
    GState → GState → Prop where
  | refl (st : GState) : StepStar byz isQuorum st st
  | tail (st st2 st3 : GState) (h : StepStar byz isQuorum st st2)
      (hs : Step byz isQuorum st2 st3) : StepStar byz isQuorum st st3

/-- The block is certified: some QC for it has formed. -/
def Certified (st : GState) (c : Chain) : Prop := ∃ q ∈ st.qcs, q.block = c

/-- The `LedgerInfo` for `b` is returned as committed: `b` heads a
certified contiguous 3-chain (§4.3 `should_commit`, §8). -/
def CommittedIn (st : GState) (b : Chain) : Prop :=
  ∃ e1 e2 : Nat × Nat,
    Certified st b ∧ Certified st (b ++ [e1]) ∧ Certified st (b ++ [e1, e2]) ∧
    chainRound (b ++ [e1]) = chainRound b + 1 ∧
    chainRound (b ++ [e1, e2]) = chainRound b + 2

theorem getElem?_append_single {α : Type} (l : List α) (x : α) (i : Nat) :
    (l ++ [x])[i]? =
      if i < l.length then l[i]?
      else if i = l.length then some x else none := by
  by_cases h1 : i < l.length
  · rw [if_pos h1]
    exact List.getElem?_append_left h1
  · rw [if_neg h1]
    by_cases h2 : i = l.length
    · rw [if_pos h2, h2]
      exact List.getElem?_concat_length l x
    · rw [if_neg h2]
      refine List.getElem?_eq_none ?_
      simp only [List.length_append, List.length_cons, List.length_nil]
      omega

theorem updLock_last (s : ReplicaState) (q : QC) :
    (updLock s q).last_voted_round = s.last_voted_round := by
  unfold updLock
  by_cases h : qcRound s.lock < qcRound q
  · rw [if_pos h]
  · rw [if_neg h]

theorem updLock_lock_mem (s : ReplicaState) (q : QC) :
    (updLock s q).lock = q ∨ (updLock s q).lock = s.lock := by
  unfold updLock
  by_cases h : qcRound s.lock < qcRound q
  · rw [if_pos h]; exact Or.inl rfl
  · rw [if_neg h]; exact Or.inr rfl

theorem updLock_round_ge (s : ReplicaState) (q : QC) :
    qcRound s.lock ≤ qcRound (updLock s q).lock := by
  unfold updLock
  by_cases h : qcRound s.lock < qcRound q
  · rw [if_pos h]; exact Nat.le_of_lt h
  · rw [if_neg h]

/-- The inductive invariant of the protocol, established by every
reachable state.  `votes_ordered` and the ghost containment in
`qc_voters` are the history facts the safety proof needs: an honest
replica's votes have strictly increasing rounds, its recorded lock at a
later vote dominates the justify round of every earlier vote, and the
lock/justify of each vote backing a QC were formed before that QC. -/
structure Inv (byz : Author → Bool) (isQuorum : List Author → Prop)
    (st : GState) : Prop where
  lock_mem : ∀ a : Author, (st.replicas a).lock ∈ st.qcs
  genesis_mem : genesisQC ∈ st.qcs
  qc_src : ∀ q ∈ st.qcs, q = genesisQC ∨ isQuorum q.voters
  hv_facts : ∀ v ∈ st.votes, byz v.author = false →
    v.justify ∈ st.qcs ∧ v.justify.block = parentChain v.block ∧
    qcRound v.justify < chainRound v.block ∧ v.lock ∈ st.qcs ∧
    (IsAncestor v.lock.block v.block ∨ qcRound v.lock < qcRound v.justify)
  vote_le : ∀ v ∈ st.votes, byz v.author = false →
    chainRound v.block ≤ (st.replicas v.author).last_voted_round
  lock_ge : ∀ v ∈ st.votes, byz v.author = false →
    qcRound v.justify ≤ qcRound (st.replicas v.author).lock
  votes_ordered : ∀ (i j : Nat) (vi vj : VoteRec),
    st.votes[i]? = some vi → st.votes[j]? = some vj → i < j →
    vi.author = vj.author → byz vi.author = false →
    chainRound vi.block < chainRound vj.block ∧
    qcRound vi.justify ≤ qcRound vj.lock
  qc_voters : ∀ (i : Nat) (q : QC), st.qcs[i]? = some q → q ≠ genesisQC →
    ∀ a ∈ q.voters, ∃ v ∈ st.votes, v.author = a ∧ v.block = q.block ∧
      (byz v.author = false →
        v.lock ∈ st.qcs.take i ∧ v.justify ∈ st.qcs.take i)

theorem inv_protoInit (byz : Author → Bool) (isQuorum : List Author → Prop) :
    Inv byz isQuorum protoInit := by
  constructor
  · intro a
    exact List.mem_singleton.mpr rfl
  · exact List.mem_singleton.mpr rfl
  · intro q hq
    exact Or.inl (List.mem_singleton.mp hq)
  · intro v hv
    simp [protoInit] at hv
  · intro v hv
    simp [protoInit] at hv
  · intro v hv
    simp [protoInit] at hv
  · intro i j vi vj hi
    simp [protoInit] at hi
  · intro i q hq hne a ha
    exfalso
    apply hne
    have : q ∈ protoInit.qcs := List.getElem?_mem hq
    exact List.mem_singleton.mp this

theorem step_inv (byz : Author → Bool) (isQuorum : List Author → Prop)
    (st st2 : GState) (hInv : Inv byz isQuorum st)
    (hs : Step byz isQuorum st st2) : Inv byz isQuorum st2 := by
  cases hs with
  | byzVote a c j L hb =>
    constructor
    · exact hInv.lock_mem
    · exact hInv.genesis_mem
    · exact hInv.qc_src
    · intro v hv hbv
      rcases List.mem_append.mp hv with hold | hnew
      · exact hInv.hv_facts v hold hbv
      · have hva : v = ⟨a, c, j, L⟩ := List.mem_singleton.mp hnew
        rw [hva] at hbv
        rw [hbv] at hb
        exact Bool.noConfusion hb
    · intro v hv hbv
      rcases List.mem_append.mp hv with hold | hnew
      · exact hInv.vote_le v hold hbv
      · have hva : v = ⟨a, c, j, L⟩ := List.mem_singleton.mp hnew
        rw [hva] at hbv
        rw [hbv] at hb
        exact Bool.noConfusion hb
    · intro v hv hbv
      rcases List.mem_append.mp hv with hold | hnew
      · exact hInv.lock_ge v hold hbv
      · have hva : v = ⟨a, c, j, L⟩ := List.mem_singleton.mp hnew
        rw [hva] at hbv
        rw [hbv] at hb
        exact Bool.noConfusion hb
    · intro i j2 vi vj hi hj hij hauth hbyz
      rw [getElem?_append_single] at hi hj
      by_cases hjlen : j2 < st.votes.length
      · rw [if_pos hjlen] at hj
        have hilen : i < st.votes.length := Nat.lt_trans hij hjlen
        rw [if_pos hilen] at hi
        exact hInv.votes_ordered i j2 vi vj hi hj hij hauth hbyz
      · rw [if_neg hjlen] at hj
        by_cases hjeq : j2 = st.votes.length
        · rw [if_pos hjeq] at hj
          have hvj : vj = ⟨a, c, j, L⟩ := (Option.some.inj hj).symm
          have hilen : i < st.votes.length := by omega
          rw [if_pos hilen] at hi
          exfalso
          rw [hauth, hvj] at hbyz
          rw [hbyz] at hb
          exact Bool.noConfusion hb
        · rw [if_neg hjeq] at hj
          exact Option.noConfusion hj
    · intro i q hq hne a2 ha2
      obtain ⟨v, hv, hva, hvb, hghost⟩ := hInv.qc_voters i q hq hne a2 ha2
      exact ⟨v, List.mem_append_left _ hv, hva, hvb, hghost⟩
  | honestVote a c j hb hj hjp hround hlast hrule =>
    have hlockmem : (st.replicas a).lock ∈ st.qcs := hInv.lock_mem a
    constructor
    · intro x
      by_cases hx : x = a
      · show (if x = a then _ else st.replicas x).lock ∈ st.qcs
        rw [if_pos hx]
        by_cases hlj : qcRound (st.replicas a).lock < qcRound j
        · simpa [hlj] using hj
        · simpa [hlj] using hlockmem
      · show (if x = a then _ else st.replicas x).lock ∈ st.qcs
        rw [if_neg hx]
        exact hInv.lock_mem x
    · exact hInv.genesis_mem
    · exact hInv.qc_src
    · intro v hv hbv
      rcases List.mem_append.mp hv with hold | hnew
      · exact hInv.hv_facts v hold hbv
      · have hva : v = ⟨a, c, j, (st.replicas a).lock⟩ := List.mem_singleton.mp hnew
        rw [hva]
        exact ⟨hj, hjp, hround, hlockmem, hrule⟩
    · intro v hv hbv
      rcases List.mem_append.mp hv with hold | hnew
      · have hle := hInv.vote_le v hold hbv
        by_cases hx : v.author = a
        · show chainRound v.block ≤
            (if v.author = a then _ else st.replicas v.author).last_voted_round
          rw [if_pos hx]
          show chainRound v.block ≤ chainRound c
          rw [hx] at hle
          exact Nat.le_of_lt (Nat.lt_of_le_of_lt hle hlast)
        · show chainRound v.block ≤
            (if v.author = a then _ else st.replicas v.author).last_voted_round
          rw [if_neg hx]
          exact hle
      · have hva : v = ⟨a, c, j, (st.replicas a).lock⟩ := List.mem_singleton.mp hnew
        rw [hva]
        show chainRound c ≤ (if a = a then
          (⟨chainRound c, _⟩ : ReplicaState) else st.replicas a).last_voted_round
        rw [if_pos rfl]
    · intro v hv hbv
      have hnewlock : qcRound (st.replicas a).lock ≤
          qcRound (if qcRound (st.replicas a).lock < qcRound j then j
            else (st.replicas a).lock) := by
        by_cases hlj : qcRound (st.replicas a).lock < qcRound j
        · rw [if_pos hlj]; exact Nat.le_of_lt hlj
        · rw [if_neg hlj]
      rcases List.mem_append.mp hv with hold | hnew
      · have hge := hInv.lock_ge v hold hbv
        by_cases hx : v.author = a
        · show qcRound v.justify ≤
            qcRound (if v.author = a then _ else st.replicas v.author).lock
          rw [if_pos hx]
          rw [hx] at hge
          exact Nat.le_trans hge hnewlock
        · show qcRound v.justify ≤
            qcRound (if v.author = a then _ else st.replicas v.author).lock
          rw [if_neg hx]
          exact hge
      · have hva : v = ⟨a, c, j, (st.replicas a).lock⟩ := List.mem_singleton.mp hnew
        rw [hva]
        show qcRound j ≤ qcRound (if a = a then
          (⟨chainRound c, if qcRound (st.replicas a).lock < qcRound j then j
            else (st.replicas a).lock⟩ : ReplicaState) else st.replicas a).lock
        rw [if_pos rfl]
        by_cases hlj : qcRound (st.replicas a).lock < qcRound j
        · simp [hlj]
        · have : qcRound j ≤ qcRound (st.replicas a).lock := Nat.le_of_not_lt hlj
          simpa [hlj] using this
    · intro i j2 vi vj hi hj2 hij hauth hbyz
      rw [getElem?_append_single] at hi hj2
      by_cases hjlen : j2 < st.votes.length
      · rw [if_pos hjlen] at hj2
        have hilen : i < st.votes.length := Nat.lt_trans hij hjlen
        rw [if_pos hilen] at hi
        exact hInv.votes_ordered i j2 vi vj hi hj2 hij hauth hbyz
      · rw [if_neg hjlen] at hj2
        by_cases hjeq : j2 = st.votes.length
        · rw [if_pos hjeq] at hj2
          have hvj : vj = ⟨a, c, j, (st.replicas a).lock⟩ := (Option.some.inj hj2).symm
          have hilen : i < st.votes.length := by omega
          rw [if_pos hilen] at hi
          have hvimem : vi ∈ st.votes := List.getElem?_mem hi
          have hauth2 : vi.author = a := by rw [hauth, hvj]
          constructor
          · have hle := hInv.vote_le vi hvimem hbyz
            rw [hauth2] at hle
            rw [hvj]
            exact Nat.lt_of_le_of_lt hle hlast
          · have hge := hInv.lock_ge vi hvimem hbyz
            rw [hauth2] at hge
            rw [hvj]
            exact hge
        · rw [if_neg hjeq] at hj2
          exact Option.noConfusion hj2
    · intro i q hq hne a2 ha2
      obtain ⟨v, hv, hva, hvb, hghost⟩ := hInv.qc_voters i q hq hne a2 ha2
      exact ⟨v, List.mem_append_left _ hv, hva, hvb, hghost⟩
  | observeQC a q hq =>
    constructor
    · intro x
      by_cases hx : x = a
      · show (if x = a then updLock (st.replicas a) q else st.replicas x).lock ∈ st.qcs
        rw [if_pos hx]
        rcases updLock_lock_mem (st.replicas a) q with h | h
        · rw [h]; exact hq
        · rw [h]; exact hInv.lock_mem a
      · show (if x = a then updLock (st.replicas a) q else st.replicas x).lock ∈ st.qcs
        rw [if_neg hx]
        exact hInv.lock_mem x
    · exact hInv.genesis_mem
    · exact hInv.qc_src
    · exact hInv.hv_facts
    · intro v hv hbv
      have hle := hInv.vote_le v hv hbv
      by_cases hx : v.author = a
      · show chainRound v.block ≤
          (if v.author = a then updLock (st.replicas a) q
            else st.replicas v.author).last_voted_round
        rw [if_pos hx, updLock_last]
        rw [hx] at hle
        exact hle
      · show chainRound v.block ≤
          (if v.author = a then updLock (st.replicas a) q
            else st.replicas v.author).last_voted_round
        rw [if_neg hx]
        exact hle
    · intro v hv hbv
      have hge := hInv.lock_ge v hv hbv
      by_cases hx : v.author = a
      · show qcRound v.justify ≤
          qcRound (if v.author = a then updLock (st.replicas a) q
            else st.replicas v.author).lock
        rw [if_pos hx]
        rw [hx] at hge
        exact Nat.le_trans hge (updLock_round_ge (st.replicas a) q)
      · show qcRound v.justify ≤
          qcRound (if v.author = a then updLock (st.replicas a) q
            else st.replicas v.author).lock
        rw [if_neg hx]
        exact hge
    · exact hInv.votes_ordered
    · exact hInv.qc_voters
  | formQC c voters hquorum hvotes =>
    constructor
    · intro a
      exact List.mem_append_left _ (hInv.lock_mem a)
    · exact List.mem_append_left _ hInv.genesis_mem
    · intro q hq
      rcases List.mem_append.mp hq with hold | hnew
      · exact hInv.qc_src q hold
      · rw [List.mem_singleton.mp hnew]
        exact Or.inr hquorum
    · intro v hv hbv
      obtain ⟨h1, h2, h3, h4, h5⟩ := hInv.hv_facts v hv hbv
      exact ⟨List.mem_append_left _ h1, h2, h3, List.mem_append_left _ h4, h5⟩
    · exact hInv.vote_le
    · exact hInv.lock_ge
    · exact hInv.votes_ordered
    · intro i q hq hne a2 ha2
      rw [getElem?_append_single] at hq
      by_cases hilen : i < st.qcs.length
      · rw [if_pos hilen] at hq
        obtain ⟨v, hv, hva, hvb, hghost⟩ := hInv.qc_voters i q hq hne a2 ha2
        refine ⟨v, hv, hva, hvb, fun hbv => ?_⟩
        obtain ⟨hg1, hg2⟩ := hghost hbv
        rw [List.take_append_of_le_length (Nat.le_of_lt hilen)]
        exact ⟨hg1, hg2⟩
      · rw [if_neg hilen] at hq
        by_cases hieq : i = st.qcs.length
        · rw [if_pos hieq] at hq
          have hqe : q = ⟨c, voters⟩ := (Option.some.inj hq).symm
          obtain ⟨v, hv, hva, hvb⟩ := hvotes a2 (by rw [hqe] at ha2; exact ha2)
          refine ⟨v, hv, hva, by rw [hqe]; exact hvb, fun hbv => ?_⟩
          obtain ⟨h1, _, _, h4, _⟩ := hInv.hv_facts v hv hbv
          rw [hieq, List.take_append_of_le_length (Nat.le_refl _), List.take_length]
          exact ⟨h4, h1⟩
        · rw [if_neg hieq] at hq
          exact Option.noConfusion hq
  | timeout =>
    exact hInv

theorem reachable_inv (byz : Author → Bool) (isQuorum : List Author → Prop)
    (st : GState) (h : Reachable byz isQuorum st) : Inv byz isQuorum st := by
  induction h with
  | init => exact inv_protoInit byz isQuorum
  | step st st2 hreach hs ih => exact step_inv byz isQuorum st st2 ih hs

theorem chainRound_concat (b : Chain) (e : Nat × Nat) :
    chainRound (b ++ [e]) = e.1 := by
  unfold chainRound
  rw [List.getLast?_concat]
  rfl

theorem mem_take_index {α : Type} (l : List α) (i : Nat) (x : α)
    (h : x ∈ l.take i) : ∃ j, j < i ∧ l[j]? = some x := by
  obtain ⟨j, hj⟩ := List.getElem?_of_mem h
  have hlt : j < (l.take i).length := (List.getElem?_eq_some.mp hj).1
  have hji : j < i := by
    rw [List.length_take] at hlt
    omega
  refine ⟨j, hji, ?_⟩
  rw [← List.getElem?_take_of_lt hji]
  exact hj

/-- A quorum-backed QC certifies a block of round at least 1: some honest
voter backed it, and an honest vote's round strictly exceeds its justify
QC's round. -/
theorem qc_nonzero_round (byz : Author → Bool) (isQuorum : List Author → Prop)
    (hinter : ∀ v1 v2 : List Author, isQuorum v1 → isQuorum v2 →
      ∃ a, a ∈ v1 ∧ a ∈ v2 ∧ byz a = false)
    (st : GState) (hInv : Inv byz isQuorum st) (q : QC) (hq : q ∈ st.qcs)
    (hne : q ≠ genesisQC) : 1 ≤ qcRound q := by
  rcases hInv.qc_src q hq with h | h
  · exact absurd h hne
  · obtain ⟨a, ha1, _, hhon⟩ := hinter q.voters q.voters h h
    obtain ⟨i, hi⟩ := List.getElem?_of_mem hq
    obtain ⟨v, hv, hva, hvb, _⟩ := hInv.qc_voters i q hi hne a ha1
    have hfacts := hInv.hv_facts v hv (by rw [hva]; exact hhon)
    have hlt : qcRound v.justify < chainRound v.block := hfacts.2.2.1
    have heq : chainRound v.block = qcRound q := by rw [hvb]; rfl
    omega

/-- Per-round uniqueness of certified blocks: two QCs at the same round
certify the same block, because their quorums share an honest voter who
casts at most one vote per round. -/
theorem qc_unique_round (byz : Author → Bool) (isQuorum : List Author → Prop)
    (hinter : ∀ v1 v2 : List Author, isQuorum v1 → isQuorum v2 →
      ∃ a, a ∈ v1 ∧ a ∈ v2 ∧ byz a = false)
    (st : GState) (hInv : Inv byz isQuorum st) (q1 q2 : QC)
    (h1 : q1 ∈ st.qcs) (h2 : q2 ∈ st.qcs)
    (hr : qcRound q1 = qcRound q2) : q1.block = q2.block := by
  by_cases hg1 : q1 = genesisQC
  · by_cases hg2 : q2 = genesisQC
    · rw [hg1, hg2]
    · exfalso
      have hpos := qc_nonzero_round byz isQuorum hinter st hInv q2 h2 hg2
      have h0 : qcRound q1 = 0 := by rw [hg1]; rfl
      omega
  · by_cases hg2 : q2 = genesisQC
    · exfalso
      have hpos := qc_nonzero_round byz isQuorum hinter st hInv q1 h1 hg1
      have h0 : qcRound q2 = 0 := by rw [hg2]; rfl
      omega
    · have hqu1 : isQuorum q1.voters := (hInv.qc_src q1 h1).resolve_left hg1
      have hqu2 : isQuorum q2.voters := (hInv.qc_src q2 h2).resolve_left hg2
      obtain ⟨a, ha1, ha2, hhon⟩ := hinter q1.voters q2.voters hqu1 hqu2
      obtain ⟨i1, hi1⟩ := List.getElem?_of_mem h1
      obtain ⟨i2, hi2⟩ := List.getElem?_of_mem h2
      obtain ⟨v1, hv1, hva1, hvb1, _⟩ := hInv.qc_voters i1 q1 hi1 hg1 a ha1
      obtain ⟨v2, hv2, hva2, hvb2, _⟩ := hInv.qc_voters i2 q2 hi2 hg2 a ha2
      obtain ⟨k1, hk1⟩ := List.getElem?_of_mem hv1
      obtain ⟨k2, hk2⟩ := List.getElem?_of_mem hv2
      have hr1 : chainRound v1.block = qcRound q1 := by rw [hvb1]; rfl
      have hr2 : chainRound v2.block = qcRound q2 := by rw [hvb2]; rfl
      have hauth : v1.author = v2.author := by rw [hva1, hva2]
      rcases Nat.lt_trichotomy k1 k2 with hk | hk | hk
      · have hord := hInv.votes_ordered k1 k2 v1 v2 hk1 hk2 hk hauth
          (by rw [hva1]; exact hhon)
        omega
      · rw [hk] at hk1
        rw [hk1] at hk2
        have hv12 : v1 = v2 := Option.some.inj hk2
        rw [← hvb1, ← hvb2, hv12]
      · have hord := hInv.votes_ordered k2 k1 v2 v1 hk2 hk1 hk hauth.symm
          (by rw [hva2]; exact hhon)
        omega

/-- The main safety lemma: once a block `B` heads a certified contiguous
3-chain, every QC of round at least `chainRound B` certifies a block on
`B`'s branch.  Proof by strong induction on QC formation order, using
quorum intersection against the 3-chain's head QC. -/
theorem certified_extends_committed (byz : Author → Bool)
    (isQuorum : List Author → Prop)
    (hinter : ∀ v1 v2 : List Author, isQuorum v1 → isQuorum v2 →
      ∃ a, a ∈ v1 ∧ a ∈ v2 ∧ byz a = false)
    (st : GState) (hInv : Inv byz isQuorum st)
    (B : Chain) (e1 e2 : Nat × Nat) (qB qB1 qB2 : QC)
    (hqB : qB ∈ st.qcs) (hqB1 : qB1 ∈ st.qcs) (hqB2 : qB2 ∈ st.qcs)
    (hbB : qB.block = B) (hbB1 : qB1.block = B ++ [e1])
    (hbB2 : qB2.block = B ++ [e1, e2])
    (hr1 : chainRound (B ++ [e1]) = chainRound B + 1)
    (hr2 : chainRound (B ++ [e1, e2]) = chainRound B + 2) :
    ∀ (i : Nat) (q : QC), st.qcs[i]? = some q →
      chainRound B ≤ qcRound q → IsAncestor B q.block := by
  intro i
  induction i using Nat.strong_induction_on with
  | _ i ih =>
    intro q hq hge
    have hrB : qcRound qB = chainRound B := by rw [qcRound, hbB]
    have hrB1 : qcRound qB1 = chainRound B + 1 := by rw [qcRound, hbB1, hr1]
    have hrB2 : qcRound qB2 = chainRound B + 2 := by rw [qcRound, hbB2, hr2]
    have hqmem : q ∈ st.qcs := List.getElem?_mem hq
    rcases Nat.lt_or_ge (qcRound q) (chainRound B + 3) with hlt | hge3
    · have h3 : qcRound q = chainRound B ∨ qcRound q = chainRound B + 1 ∨
        qcRound q = chainRound B + 2 := by omega
      rcases h3 with h | h | h
      · have heq := qc_unique_round byz isQuorum hinter st hInv q qB hqmem hqB
          (by omega)
        rw [heq, hbB]
        exact IsAncestor.refl B
      · have heq := qc_unique_round byz isQuorum hinter st hInv q qB1 hqmem hqB1
          (by omega)
        rw [heq, hbB1]
        exact ⟨[e1], rfl⟩
      · have heq := qc_unique_round byz isQuorum hinter st hInv q qB2 hqmem hqB2
          (by omega)
        rw [heq, hbB2]
        exact ⟨[e1, e2], rfl⟩
    · have hgne : q ≠ genesisQC := by
        intro h
        have h0 : qcRound q = 0 := by rw [h]; rfl
        omega
      have hgne2 : qB2 ≠ genesisQC := by
        intro h
        have h0 : qcRound qB2 = 0 := by rw [h]; rfl
        omega
      have hqu : isQuorum q.voters := (hInv.qc_src q hqmem).resolve_left hgne
      have hqu2 : isQuorum qB2.voters := (hInv.qc_src qB2 hqB2).resolve_left hgne2
      obtain ⟨h, hh1, hh2, hhon⟩ := hinter q.voters qB2.voters hqu hqu2
      obtain ⟨v, hv, hva, hvb, hghost⟩ := hInv.qc_voters i q hq hgne h hh1
      have hghostv := hghost (by rw [hva]; exact hhon)
      obtain ⟨i2, hi2⟩ := List.getElem?_of_mem hqB2
      obtain ⟨w, hw, hwa, hwb, _⟩ := hInv.qc_voters i2 qB2 hi2 hgne2 h hh2
      have hvhon : byz v.author = false := by rw [hva]; exact hhon
      have hwhon : byz w.author = false := by rw [hwa]; exact hhon
      have hvfacts := hInv.hv_facts v hv hvhon
      have hwfacts := hInv.hv_facts w hw hwhon
      have hvr : chainRound v.block = qcRound q := by rw [hvb]; rfl
      have hwr : chainRound w.block = chainRound B + 2 := by
        rw [hwb, hbB2]
        exact hr2
      have hwjb : w.justify.block = B ++ [e1] := by
        have hpj := hwfacts.2.1
        rw [hpj, hwb, hbB2]
        show parentChain (B ++ [e1, e2]) = B ++ [e1]
        unfold parentChain
        rw [show B ++ [e1, e2] = (B ++ [e1]) ++ [e2] by simp]
        exact List.dropLast_concat
      have hwjr : qcRound w.justify = chainRound B + 1 := by
        rw [qcRound, hwjb]
        exact hr1
      obtain ⟨kv, hkv⟩ := List.getElem?_of_mem hv
      obtain ⟨kw, hkw⟩ := List.getElem?_of_mem hw
      have hauth : w.author = v.author := by rw [hva, hwa]
      have hkord : kw < kv := by
        rcases Nat.lt_trichotomy kv kw with hk | hk | hk
        · exfalso
          have hord := hInv.votes_ordered kv kw v w hkv hkw hk hauth.symm hvhon
          omega
        · exfalso
          rw [hk] at hkv
          rw [hkv] at hkw
          have hvw : v = w := Option.some.inj hkw
          rw [hvw] at hvr
          omega
        · exact hk
      have hord := hInv.votes_ordered kw kv w v hkw hkv hkord hauth hwhon
      have hvlock : chainRound B + 1 ≤ qcRound v.lock := by
        rw [← hwjr]
        exact hord.2
      rcases hvfacts.2.2.2.2 with hext | hjgt
      · obtain ⟨jl, hjl, hjlq⟩ := mem_take_index st.qcs i v.lock hghostv.1
        have hBanc := ih jl hjl v.lock hjlq (by omega)
        exact hBanc.trans (hvb ▸ hext)
      · obtain ⟨jj, hjj, hjjq⟩ := mem_take_index st.qcs i v.justify hghostv.2
        have hjr : chainRound B ≤ qcRound v.justify := by omega
        have hBanc := ih jj hjj v.justify hjjq hjr
        have hpar : IsAncestor v.justify.block v.block := by
          rw [hvfacts.2.1]
          exact parentChain_isAncestor v.block
        exact hBanc.trans (hvb ▸ hpar)

theorem step_qcs_mono (byz : Author → Bool) (isQuorum : List Author → Prop)
    (st st2 : GState) (hs : Step byz isQuorum st st2) :
    ∀ q ∈ st.qcs, q ∈ st2.qcs := by
  cases hs with
  | byzVote a c j L hb => exact fun q hq => hq
  | honestVote a c j hb hj hjp hround hlast hrule => exact fun q hq => hq
  | observeQC a q2 hq2 => exact fun q hq => hq
  | formQC c voters hquorum hvotes => exact fun q hq => List.mem_append_left _ hq
  | timeout => exact fun q hq => hq

theorem stepStar_qcs_mono (byz : Author → Bool) (isQuorum : List Author → Prop)
    (st st2 : GState) (hs : StepStar byz isQuorum st st2) :
    ∀ q ∈ st.qcs, q ∈ st2.qcs := by
  induction hs with
  | refl => exact fun q hq => hq
  | tail st2 st3 h hstep ih =>
    exact fun q hq => step_qcs_mono byz isQuorum st2 st3 hstep q (ih q hq)

theorem committedIn_mono (byz : Author → Bool) (isQuorum : List Author → Prop)
    (st st2 : GState) (hs : StepStar byz isQuorum st st2) (b : Chain)
    (h : CommittedIn st b) : CommittedIn st2 b := by
  obtain ⟨e1, e2, ⟨q0, hq0, hb0⟩, ⟨q1, hq1, hb1⟩, ⟨q2, hq2, hb2⟩, hr1, hr2⟩ := h
  have mono := stepStar_qcs_mono byz isQuorum st st2 hs
  exact ⟨e1, e2, ⟨q0, mono q0 hq0, hb0⟩, ⟨q1, mono q1 hq1, hb1⟩,
    ⟨q2, mono q2 hq2, hb2⟩, hr1, hr2⟩

theorem reachable_star (byz : Author → Bool) (isQuorum : List Author → Prop)
    (st st2 : GState) (h : Reachable byz isQuorum st)
    (hs : StepStar byz isQuorum st st2) : Reachable byz isQuorum st2 := by
  induction hs with
  | refl => exact h
  | tail st2 st3 hstar hstep ih => exact Reachable.step st2 st3 ih hstep

/-- Claim C1: under the Byzantine quorum-intersection assumption (any two
quorums share an honest replica), over every reachable state and every
further sequence of Proposal/Vote/Timeout events, once the `LedgerInfo`
for a block `B` at round R has been returned as committed, every block
whose `LedgerInfo` is ever returned as committed at round ≤ R lies on
`B`'s own branch (is an ancestor of or equal to `B`), and any two
committed blocks are ancestry-comparable: the committed `LedgerInfo`s
form a single monotonic chain with no two conflicting commits at the same
or lower round. -/
theorem committed_ledgers_form_chain (byz : Author → Bool)
    (isQuorum : List Author → Prop)
    (hinter : ∀ v1 v2 : List Author, isQuorum v1 → isQuorum v2 →
      ∃ a, a ∈ v1 ∧ a ∈ v2 ∧ byz a = false)
    (st st2 : GState) (hreach : Reachable byz isQuorum st)
    (hstar : StepStar byz isQuorum st st2)
    (B B2 : Chain) (hB : CommittedIn st B) (hB2 : CommittedIn st2 B2) :
    (chainRound B2 ≤ chainRound B → IsAncestor B2 B) ∧
    (IsAncestor B B2 ∨ IsAncestor B2 B) := by
  have hreach2 := reachable_star byz isQuorum st st2 hreach hstar
  have hInv := reachable_inv byz isQuorum st2 hreach2
  have hBp : CommittedIn st2 B := committedIn_mono byz isQuorum st st2 hstar B hB
  have main : ∀ X Y : Chain, CommittedIn st2 X → CommittedIn st2 Y →
      chainRound X ≤ chainRound Y → IsAncestor X Y := by
    intro X Y hX hY hle
    obtain ⟨e1, e2, ⟨qX, hqX, hbX⟩, ⟨qX1, hqX1, hbX1⟩, ⟨qX2, hqX2, hbX2⟩,
      hr1, hr2⟩ := hX
    obtain ⟨f1, f2, ⟨qY, hqY, hbY⟩, _, _, _, _⟩ := hY
    obtain ⟨iY, hiY⟩ := List.getElem?_of_mem hqY
    have hres := certified_extends_committed byz isQuorum hinter st2 hInv X e1 e2
      qX qX1 qX2 hqX hqX1 hqX2 hbX hbX1 hbX2 hr1 hr2 iY qY hiY
      (by rw [qcRound, hbY]; exact hle)
    rwa [hbY] at hres
  refine ⟨fun hle => main B2 B hB2 hBp hle, ?_⟩
  rcases Nat.le_total (chainRound B) (chainRound B2) with hle | hle
  · exact Or.inl (main B B2 hBp hB2 hle)
  · exact Or.inr (main B2 B hB2 hBp hle)

/-! A concrete run for the witness: one honest replica `0` is a quorum by
itself (`isQuorum v ↔ 0 ∈ v`, which trivially satisfies quorum
intersection); it votes for and certifies the chain of rounds 1, 2, 3,
committing the round-1 block. -/

/-- Witness blocks: the chain of rounds 1, 2, 3. -/
def wB1 : Chain := [(1, 0)]

def wB2 : Chain := [(1, 0), (2, 0)]

def wB3 : Chain := [(1, 0), (2, 0), (3, 0)]

def wQ1 : QC := ⟨wB1, [0]⟩

def wQ2 : QC := ⟨wB2, [0]⟩

def wQ3 : QC := ⟨wB3, [0]⟩

/-- The witness run's states, mirroring each step's result. -/
def wS1 : GState :=
  { votes := protoInit.votes ++ [⟨0, wB1, genesisQC, (protoInit.replicas 0).lock⟩],
    qcs := protoInit.qcs,
    replicas := fun x =>
      if x = 0 then
        ⟨chainRound wB1,
          if qcRound (protoInit.replicas 0).lock < qcRound genesisQC then genesisQC
          else (protoInit.replicas 0).lock⟩
      else protoInit.replicas x }

def wS2 : GState := { wS1 with qcs := wS1.qcs ++ [⟨wB1, [0]⟩] }

def wS3 : GState :=
  { votes := wS2.votes ++ [⟨0, wB2, wQ1, (wS2.replicas 0).lock⟩],
    qcs := wS2.qcs,
    replicas := fun x =>
      if x = 0 then
        ⟨chainRound wB2,
          if qcRound (wS2.replicas 0).lock < qcRound wQ1 then wQ1
          else (wS2.replicas 0).lock⟩
      else wS2.replicas x }

def wS4 : GState := { wS3 with qcs := wS3.qcs ++ [⟨wB2, [0]⟩] }

def wS5 : GState :=
  { votes := wS4.votes ++ [⟨0, wB3, wQ2, (wS4.replicas 0).lock⟩],
    qcs := wS4.qcs,
    replicas := fun x =>
      if x = 0 then
        ⟨chainRound wB3,
          if qcRound (wS4.replicas 0).lock < qcRound wQ2 then wQ2
          else (wS4.replicas 0).lock⟩
      else wS4.replicas x }

def wS6 : GState := { wS5 with qcs := wS5.qcs ++ [⟨wB3, [0]⟩] }

theorem wS6_reachable :
    Reachable (fun _ => false) (fun v => 0 ∈ v) wS6 := by
  refine Reachable.step wS5 wS6 ?_ (Step.formQC wS5 wB3 [0] (by decide) ?_)
  · refine Reachable.step wS4 wS5 ?_
      (Step.honestVote wS4 0 wB3 wQ2 rfl (by decide) rfl (by decide) (by decide)
        (Or.inl ⟨[(2, 0), (3, 0)], rfl⟩))
    refine Reachable.step wS3 wS4 ?_ (Step.formQC wS3 wB2 [0] (by decide) ?_)
    · refine Reachable.step wS2 wS3 ?_
        (Step.honestVote wS2 0 wB2 wQ1 rfl (by decide) rfl (by decide) (by decide)
          (Or.inl ⟨wB2, rfl⟩))
      refine Reachable.step wS1 wS2 ?_ (Step.formQC wS1 wB1 [0] (by decide) ?_)
      · exact Reachable.step protoInit wS1 Reachable.init
          (Step.honestVote protoInit 0 wB1 genesisQC rfl (by decide) rfl
            (by decide) (by decide) (Or.inl ⟨wB1, rfl⟩))
      · intro a ha
        have ha0 : a = 0 := by simpa using ha
        exact ⟨⟨0, wB1, genesisQC, (protoInit.replicas 0).lock⟩, by decide,
          by rw [ha0], rfl⟩
    · intro a ha
      have ha0 : a = 0 := by simpa using ha
      exact ⟨⟨0, wB2, wQ1, (wS2.replicas 0).lock⟩, by decide, by rw [ha0], rfl⟩
  · intro a ha
    have ha0 : a = 0 := by simpa using ha
    exact ⟨⟨0, wB3, wQ2, (wS4.replicas 0).lock⟩, by decide, by rw [ha0], rfl⟩

theorem wS6_committed : CommittedIn wS6 wB1 :=
  ⟨(2, 0), (3, 0),
    ⟨wQ1, by decide, rfl⟩, ⟨wQ2, by decide, rfl⟩, ⟨wQ3, by decide, rfl⟩,
    by decide, by decide⟩

/-- Witness for C1 at the concrete run: the round-1 block is committed,
and the claim theorem applied to this run yields that any commit at round
≤ 1 is on its branch. -/
theorem committed_ledgers_form_chain_witness :
    Reachable (fun _ => false) (fun v => 0 ∈ v) wS6 ∧
    CommittedIn wS6 wB1 ∧
    (chainRound wB1 ≤ chainRound wB1 → IsAncestor wB1 wB1) ∧
    (IsAncestor wB1 wB1 ∨ IsAncestor wB1 wB1) :=
  ⟨wS6_reachable, wS6_committed,
    (committed_ledgers_form_chain (fun _ => false) (fun v => 0 ∈ v)
      (fun _ _ h1 h2 => ⟨0, h1, h2, rfl⟩) wS6 wS6 wS6_reachable
      (StepStar.refl wS6) wB1 wB1 wS6_committed wS6_committed).1,
    ((committed_ledgers_form_chain (fun _ => false) (fun v => 0 ∈ v)
      (fun _ _ h1 h2 => ⟨0, h1, h2, rfl⟩) wS6 wS6 wS6_reachable
      (StepStar.refl wS6) wB1 wB1 wS6_committed wS6_committed).2)⟩

end Proto
